import Mathlib

/-!
Verification development for the incremental state-trie engine (`crates/trie/src/trie.rs`)
and the RPC log-filter utilities (`crates/rpc/rpc/src/eth/filter.rs`).

The coordinator code of `StateRoot::calculate` / `StorageRoot::calculate` is embedded
directly from the source.  The collaborators that live outside the provided sources
(trie walker, node iterators, hash builder, cursors, prefix sets) are modelled from the
specification: the walker/node-iterator pair is abstracted as the ordered stream of
`Branch`/`Leaf` events it yields (together with the walker updates emitted while
producing each event), and the hash builder as a state that accumulates its inputs,
with its root and its emitted branch-node updates given by an abstract `HBModel`.
Machine integers are `Nat` with explicit `% 2^64` where u64 overflow matters.
-/

/-- The modulus of 64-bit unsigned arithmetic. -/
def U64 : Nat := 18446744073709551616

/-- Modelled from the spec: `EMPTY_ROOT_HASH = keccak256(RLP(""))`, an external constant
from `reth_primitives` (not under the provided sources). -/
def EMPTY_ROOT_HASH : Nat := 0x56e81f171bcc55a6ff8345e692c0f86e5b48e01b996cadc001622fb5e363b421

/-- Hashed 32-byte values (addresses, slots, hashes) are abstracted as `Nat`. -/
abbrev B256 := Nat

/-- A nibble path. -/
abbrev Nibbles := List Nat

/-- Modelled from the spec: `Nibbles::unpack` of a 32-byte hash, 64 nibbles
most-significant first (external primitive from `reth_primitives`). -/
def nibblesUnpack (a : B256) : Nibbles :=
  (List.range 64).map (fun i => a / 16 ^ (63 - i) % 16)

/-- An account record (`reth_primitives::Account`): nonce, balance, optional code hash. -/
structure Acct where
  nonce : Nat
  balance : Nat
  codeHash : Option Nat
deriving DecidableEq

/-- Modelled from the spec: a persisted intermediate branch-node record
(`BranchNodeCompact`, defined outside the provided sources). -/
structure BranchNodeCompact where
  stateMask : Nat
  treeMask : Nat
  hashMask : Nat
  hashes : List Nat
  rootHash : Option Nat
deriving DecidableEq

/-- Modelled from the spec: the keys of the trie-updates accumulator
(`updates.rs::TrieKey`, used by the sources as `TrieKey::StorageTrie` etc.). -/
inductive TrieKey where
  | accountNode (path : Nibbles)
  | storageTrie (addr : B256)
  | storageNode (addr : B256) (path : Nibbles)
deriving DecidableEq

/-- Modelled from the spec: the operations of the trie-updates accumulator. -/
inductive TrieOp where
  | update (node : BranchNodeCompact)
  | delete
deriving DecidableEq

/-- The trie-updates accumulator, modelled as the list of insertions into the
underlying map (last write per key wins). -/
abbrev TrieUpdates := List (TrieKey × TrieOp)

/-- Map lookup in a `TrieUpdates` accumulator: the last write for the key wins. -/
def TrieUpdates.lookupOp (u : TrieUpdates) (k : TrieKey) : Option TrieOp :=
  (u.reverse.find? (fun e => e.1 == k)).map Prod.snd

/-- The size of the accumulator as a map (`HashMap::len`): distinct keys. -/
def TrieUpdates.mapLen (u : TrieUpdates) : Nat :=
  ((u.map Prod.fst).eraseDups).length

/-- Leaf values fed to the hash builder: the RLP encoding of an account with its
storage root, or of a storage slot value.  The RLP codec is an external primitive,
modelled as an injective constructor. -/
inductive LeafVal where
  | account (a : Acct) (storageRoot : Nat)
  | slot (v : Nat)
deriving DecidableEq

/-- One input fed into the hash builder: `add_leaf` or `add_branch`. -/
inductive HBInput where
  | leaf (key : Nibbles) (value : LeafVal)
  | branch (key : Nibbles) (value : Nat) (childrenInTrie : Bool)
deriving DecidableEq

/-- Modelled from the spec: the abstract behaviour of the streaming hash builder
(`HashBuilder` lives outside the provided sources).  `rootOf` gives the root for a
sequence of inputs, `updOf` the branch-node updates emitted while adding one input,
and `rootUpdOf` the updates emitted by the final `root()` call that finalizes the
remaining stack frames. -/
structure HBModel where
  rootOf : List HBInput → Nat
  updOf : HBInput → List (Nibbles × BranchNodeCompact)
  rootUpdOf : List HBInput → List (Nibbles × BranchNodeCompact)

/-- Modelled from the spec: the hash builder state.  It accumulates all inputs fed
so far (the retained prefix stack and pending groups are a function of these) and
the updates not yet drained by `split`.  `retain` is the `set_updates` flag. -/
structure HashBuilder where
  inputs : List HBInput
  pending : List (Nibbles × BranchNodeCompact)
  retain : Bool
deriving DecidableEq

/-- `HashBuilder::add_leaf` / `add_branch`: record the input; in retain-updates mode
also record the branch-node updates this input finalizes. -/
def HashBuilder.add (hb : HashBuilder) (m : HBModel) (i : HBInput) : HashBuilder :=
  { inputs := hb.inputs ++ [i]
    pending := hb.pending ++ (if hb.retain then m.updOf i else [])
    retain := hb.retain }

/-- `HashBuilder::split`: return the builder state with its pending updates drained,
together with those updates. -/
def HashBuilder.split (hb : HashBuilder) : HashBuilder × List (Nibbles × BranchNodeCompact) :=
  ({ hb with pending := [] }, hb.pending)

/-- `HashBuilder::updates_len`: the number of pending (path ↦ node) entries. -/
def hbUpdatesLen (hb : HashBuilder) : Nat :=
  ((hb.pending.map Prod.fst).eraseDups).length

/-- The updates drained from the hash builder by a `split` performed after `root()`:
the pending ones plus the ones emitted while finalizing the remaining frames. -/
def hbFinalUpds (m : HBModel) (hb : HashBuilder) : List (Nibbles × BranchNodeCompact) :=
  hb.pending ++ (if hb.retain then m.rootUpdOf hb.inputs else [])

/-- `TrieUpdates::extend_with_account_updates`: key hash-builder updates by
`TrieKey::AccountNode`. -/
def accountKeyed (l : List (Nibbles × BranchNodeCompact)) : TrieUpdates :=
  l.map (fun nb => (TrieKey.accountNode nb.1, TrieOp.update nb.2))

/-- `TrieUpdates::extend_with_storage_updates`: key hash-builder updates by
`TrieKey::StorageNode` for the given hashed address. -/
def storageKeyed (addr : B256) (l : List (Nibbles × BranchNodeCompact)) : TrieUpdates :=
  l.map (fun nb => (TrieKey.storageNode addr nb.1, TrieOp.update nb.2))

/-- `TrieUpdates::extend_with_deletes` over `TrieKey::StorageTrie` keys. -/
def deleteKeyed (l : List B256) : TrieUpdates :=
  l.map (fun a => (TrieKey.storageTrie a, TrieOp.delete))

/-- A node yielded by the storage node iterator. -/
inductive SNode where
  | branch (key : Nibbles) (value : Nat) (childrenInTrie : Bool)
  | leaf (hashedSlot : B256) (value : Nat)
deriving DecidableEq

/-- Modelled from the spec: one `StorageNodeIter::try_next` event, together with the
walker updates emitted while producing it. -/
structure SEvent where
  node : SNode
  wUpd : TrieUpdates
deriving DecidableEq

instance {α β : Type} [DecidableEq α] [DecidableEq β] : DecidableEq (Except α β)
  | .error x, .error y =>
    if h : x = y then .isTrue (by rw [h]) else .isFalse (by intro hc; cases hc; exact h rfl)
  | .error _, .ok _ => .isFalse (by intro hc; cases hc)
  | .ok _, .error _ => .isFalse (by intro hc; cases hc)
  | .ok x, .ok y =>
    if h : x = y then .isTrue (by rw [h]) else .isFalse (by intro hc; cases hc; exact h rfl)

/-- Modelled from the spec: the environment a `StorageRoot` computation observes
through its cursors.  `openErr` is a failure of `hashed_storage_cursor()`,
`emptyChk` the result of `is_storage_empty`, `trieCurErr` a failure of
`cursor_dup_read`, `evs` the node stream, `streamErr` a cursor failure hit after
the listed events. -/
structure StorageEnv where
  openErr : Option Nat
  emptyChk : Except Nat Bool
  trieCurErr : Option Nat
  evs : List SEvent
  streamErr : Option Nat
deriving DecidableEq

/-- `StorageRootError`: database errors surfaced by a storage-root computation. -/
inductive StorageRootError where
  | database (e : Nat)
deriving DecidableEq

/-- The `while let` loop of `StorageRoot::calculate`: fold the node stream into the
hash builder, accumulating walker updates and the walked slot count. -/
def storageCalcGo (m : HBModel) (retain : Bool) :
    List SEvent → HashBuilder → TrieUpdates → Nat → HashBuilder × TrieUpdates × Nat
  | [], hb, wpend, slots => (hb, wpend, slots)
  | ev :: rest, hb, wpend, slots =>
    match ev.node with
    | .branch k v c =>
        storageCalcGo m retain rest (hb.add m (.branch k v c))
          (wpend ++ (if retain then ev.wUpd else [])) slots
    | .leaf s v =>
        storageCalcGo m retain rest (hb.add m (.leaf (nibblesUnpack s) (.slot v)))
          (wpend ++ (if retain then ev.wUpd else [])) (slots + 1)

/-- `StorageRoot::calculate`: short-circuit on empty storage, otherwise walk the
stream, compute the root, and collate walker and hash-builder updates. -/
def StorageRoot.calculate (m : HBModel) (env : StorageEnv) (addr : B256) (retain : Bool) :
    Except StorageRootError (Nat × Nat × TrieUpdates) :=
  match env.openErr with
  | some e => .error (.database e)
  | none =>
    match env.emptyChk with
    | .error e => .error (.database e)
    | .ok true =>
        .ok (EMPTY_ROOT_HASH, 0, [(TrieKey.storageTrie addr, TrieOp.delete)])
    | .ok false =>
      match env.trieCurErr with
      | some e => .error (.database e)
      | none =>
        let r := storageCalcGo m retain env.evs ⟨[], [], retain⟩ [] 0
        match env.streamErr with
        | some e => .error (.database e)
        | none =>
          .ok (m.rootOf r.1.inputs, r.2.2,
            r.2.1 ++ storageKeyed addr (hbFinalUpds m r.1))

/-- `StorageRoot::root_with_updates`. -/
def StorageRoot.rootWithUpdates (m : HBModel) (env : StorageEnv) (addr : B256) :
    Except StorageRootError (Nat × Nat × TrieUpdates) :=
  StorageRoot.calculate m env addr true

/-- `StorageRoot::root`. -/
def StorageRoot.root (m : HBModel) (env : StorageEnv) (addr : B256) :
    Except StorageRootError Nat :=
  match StorageRoot.calculate m env addr false with
  | .error e => .error e
  | .ok r => .ok r.1

/-- `StateRootError`: a database error, or a wrapped storage-root error. -/
inductive StateRootError where
  | database (e : Nat)
  | storageRootError (e : StorageRootError)
deriving DecidableEq

/-- A node yielded by the account node iterator. -/
inductive ANode where
  | branch (key : Nibbles) (value : Nat) (childrenInTrie : Bool)
  | leaf (hashedAddress : B256) (acct : Acct)
deriving DecidableEq

/-- Modelled from the spec: one `AccountNodeIter::try_next` event, together with the
walker updates emitted while producing it. -/
structure AEvent where
  node : ANode
  wUpd : TrieUpdates
deriving DecidableEq

/-- Modelled from the spec: the environment a `StateRoot` computation observes.
`openErr` is a failure of `hashed_account_cursor()`/`cursor_read`, `evs` the account
node stream of a fresh walk, `streamErr` a cursor failure hit after the listed
events, `storage` the per-address storage environment, `destroyed` the configured
destroyed-accounts set. -/
structure StateEnv where
  openErr : Option Nat
  evs : List AEvent
  streamErr : Option Nat
  storage : B256 → StorageEnv
  destroyed : List B256

/-- `IntermediateStateRootState`: the snapshot returned at a suspension point.  The
walker stack is abstracted by the stream of events the restored walker will yield. -/
structure IntermediateStateRootState where
  hashBuilder : HashBuilder
  walkerStack : List AEvent
  lastAccountKey : B256
deriving DecidableEq

/-- `StateRootProgress`: the result of one segment of a state-root computation. -/
inductive StateRootProgress where
  | complete (root : Nat) (walked : Nat) (upds : TrieUpdates)
  | progress (st : IntermediateStateRootState) (walked : Nat) (upds : TrieUpdates)
deriving DecidableEq

/-- The mutable state of the `while let` loop in `StateRoot::calculate`:
the coordinator accumulator `trie_updates`, the walker's pending updates, the hash
builder, and `hashed_entries_walked`. -/
structure LoopSt where
  trieUpd : TrieUpdates
  wPend : TrieUpdates
  hb : HashBuilder
  walked : Nat
deriving DecidableEq

/-- The `total_updates_len` measured at the threshold check:
`trie_updates.len() + walker.updates_len() + hash_builder.updates_len()`. -/
def totalLen (s : LoopSt) : Nat :=
  TrieUpdates.mapLen s.trieUpd + TrieUpdates.mapLen s.wPend + hbUpdatesLen s.hb

/-- One iteration of the `while let` loop of `StateRoot::calculate` on one node.
Returns the updated loop state and, when the computation must suspend (a leaf was
added in retain-updates mode and the pending update count reached the threshold),
the hashed address of that leaf. -/
def stepEv (m : HBModel) (env : StateEnv) (retain : Bool) (thr : Nat)
    (s : LoopSt) (ev : AEvent) : Except StateRootError (LoopSt × Option B256) :=
  match ev.node with
  | .branch k v c =>
      .ok ({ s with hb := s.hb.add m (.branch k v c)
                    wPend := s.wPend ++ (if retain then ev.wUpd else []) }, none)
  | .leaf addr acct =>
      match StorageRoot.calculate m (env.storage addr) addr retain with
      | .error e => .error (.storageRootError e)
      | .ok res =>
          let s3 : LoopSt :=
            { trieUpd := s.trieUpd ++ (if retain then res.2.2 else [])
              wPend := s.wPend ++ (if retain then ev.wUpd else [])
              hb := s.hb.add m (.leaf (nibblesUnpack addr) (.account acct res.1))
              walked := s.walked + 1 + (if retain then res.2.1 else 0) }
          .ok (s3, if retain ∧ thr ≤ totalLen s3 then some addr else none)

/-- The loop state reached after processing one account leaf in retain-updates
mode: the walker updates and the storage-root updates are accumulated, the
account is fed to the hash builder, and the walked count grows by one plus the
walked storage slots. -/
def leafState (m : HBModel) (s : LoopSt) (ev : AEvent) (addr : B256) (acct : Acct)
    (res : Nat × Nat × TrieUpdates) : LoopSt :=
  { trieUpd := s.trieUpd ++ res.2.2
    wPend := s.wPend ++ ev.wUpd
    hb := s.hb.add m (.leaf (nibblesUnpack addr) (.account acct res.1))
    walked := s.walked + 1 + res.2.1 }

/-- The `while let` loop of `StateRoot::calculate`, from a given loop state over the
remaining node stream.  At stream end it finalizes the root, drains walker and
hash-builder updates, and appends the destroyed-account deletes; at a suspension
point it snapshots the walker stack and split hash builder. -/
def calcGo (m : HBModel) (env : StateEnv) (retain : Bool) (thr : Nat) :
    List AEvent → LoopSt → Except StateRootError StateRootProgress
  | [], s =>
    match env.streamErr with
    | some e => .error (.database e)
    | none =>
      .ok (.complete (m.rootOf s.hb.inputs) s.walked
        (s.trieUpd ++ s.wPend ++ accountKeyed (hbFinalUpds m s.hb) ++
          deleteKeyed env.destroyed))
  | ev :: rest, s =>
    match stepEv m env retain thr s ev with
    | .error e => .error e
    | .ok (s', none) => calcGo m env retain thr rest s'
    | .ok (s', some addr) =>
        .ok (.progress ⟨(HashBuilder.split s'.hb).1, rest, addr⟩ s'.walked
          (s'.trieUpd ++ s'.wPend ++ accountKeyed (HashBuilder.split s'.hb).2))

/-- The loop state of a fresh computation: default accumulators and a default hash
builder with `set_updates(retain)` applied. -/
def initLoopSt (retain : Bool) : LoopSt :=
  ⟨[], [], ⟨[], [], retain⟩, 0⟩

/-- The loop state restored from a previous intermediate state: fresh accumulators,
the snapshot hash builder with `set_updates(retain)` applied. -/
def resumeLoopSt (retain : Bool) (st : IntermediateStateRootState) : LoopSt :=
  ⟨[], [], ⟨st.hashBuilder.inputs, st.hashBuilder.pending, retain⟩, 0⟩

/-- The node stream walked by a computation: a fresh walk, or the stream of the
restored walker after re-seeking past `last_account_key`. -/
def initialStack (env : StateEnv) : Option IntermediateStateRootState → List AEvent
  | none => env.evs
  | some st => st.walkerStack

/-- The initial loop state of a computation, fresh or restored. -/
def initialState (retain : Bool) : Option IntermediateStateRootState → LoopSt
  | none => initLoopSt retain
  | some st => resumeLoopSt retain st

/-- `StateRoot::calculate` with the given retain-updates flag, threshold and
previous intermediate state. -/
def StateRoot.calculate (m : HBModel) (env : StateEnv) (retain : Bool) (thr : Nat)
    (prev : Option IntermediateStateRootState) : Except StateRootError StateRootProgress :=
  match env.openErr with
  | some e => .error (.database e)
  | none => calcGo m env retain thr (initialStack env prev) (initialState retain prev)

/-- `StateRoot::root`: calculate without retaining updates; the `Progress` arm is
`unreachable!()` in the source, modelled as `none`. -/
def StateRoot.root (m : HBModel) (env : StateEnv) (thr : Nat)
    (prev : Option IntermediateStateRootState) : Except StateRootError (Option Nat) :=
  match StateRoot.calculate m env false thr prev with
  | .error e => .error e
  | .ok (.complete root _ _) => .ok (some root)
  | .ok (.progress _ _ _) => .ok none

/-- `StateRoot::root_with_updates`: `with_no_threshold` (threshold `u64::MAX`) then
calculate retaining updates; the `Progress` arm is `unreachable!()`, modelled as
`none`. -/
def StateRoot.rootWithUpdates (m : HBModel) (env : StateEnv)
    (prev : Option IntermediateStateRootState) :
    Except StateRootError (Option (Nat × TrieUpdates)) :=
  match StateRoot.calculate m env true (U64 - 1) prev with
  | .error e => .error e
  | .ok (.complete root _ upds) => .ok (some (root, upds))
  | .ok (.progress _ _ _) => .ok none

/-- `StateRoot::root_with_progress`: calculate retaining updates. -/
def StateRoot.rootWithProgress (m : HBModel) (env : StateEnv) (thr : Nat)
    (prev : Option IntermediateStateRootState) : Except StateRootError StateRootProgress :=
  StateRoot.calculate m env true thr prev

/-- The resumption driver of the source's `arbitrary_state_root_with_progress` test:
repeatedly call `root_with_progress`, feeding each `Progress` snapshot into the next
call and accumulating walked counts and drained updates, until `Complete`. -/
def runWithProgress (m : HBModel) (env : StateEnv) (thr : Nat) :
    Nat → Option IntermediateStateRootState → Nat → TrieUpdates →
    Except StateRootError (Option (Nat × Nat × TrieUpdates))
  | 0, _, _, _ => .ok none
  | fuel+1, prev, accW, accU =>
    match StateRoot.rootWithProgress m env thr prev with
    | .error e => .error e
    | .ok (.complete root w u) => .ok (some (root, accW + w, accU ++ u))
    | .ok (.progress st w u) => runWithProgress m env thr fuel (some st) (accW + w) (accU ++ u)

/-- The same driver, phrased directly on the loop: used to relate the chunked run to
the single-shot run. -/
def chunkAux (m : HBModel) (env : StateEnv) (thr : Nat) :
    Nat → List AEvent → LoopSt → Nat → TrieUpdates →
    Except StateRootError (Option (Nat × Nat × TrieUpdates))
  | 0, _, _, _, _ => .ok none
  | fuel+1, evs, s, accW, accU =>
    match calcGo m env true thr evs s with
    | .error e => .error e
    | .ok (.complete root w u) => .ok (some (root, accW + w, accU ++ u))
    | .ok (.progress st w u) =>
        chunkAux m env thr fuel st.walkerStack (resumeLoopSt true st) (accW + w) (accU ++ u)

/-- Replay of the loop over a prefix of the node stream, ignoring suspension flags:
the loop state reached after processing the prefix. -/
def replay (m : HBModel) (env : StateEnv) (retain : Bool) (thr : Nat) :
    LoopSt → List AEvent → Except StateRootError LoopSt
  | s, [] => .ok s
  | s, ev :: rest =>
    match stepEv m env retain thr s ev with
    | .error e => .error e
    | .ok sp => replay m env retain thr sp.1 rest

/-- Decidable check that every loop state reachable along the stream keeps the
pending update count below `lim` (with threshold `u64::MAX`). -/
def replayCountsBelow (m : HBModel) (env : StateEnv) (evs0 : List AEvent)
    (s0 : LoopSt) (lim : Nat) : Bool :=
  (List.range (evs0.length + 1)).all (fun n =>
    match replay m env true (U64 - 1) s0 (evs0.take n) with
    | .ok s1 => decide (totalLen s1 < lim)
    | .error _ => true)

/-- Whether a segment result is a `Progress` value. -/
def isProgressResult : Except StateRootError StateRootProgress → Bool
  | .ok (.progress _ _ _) => true
  | _ => false

/-- Whether a `root`/`root_with_updates` call hit its `unreachable!()` arm. -/
def hitsUnreachable {E A : Type} : Except E (Option A) → Bool
  | .ok none => true
  | _ => false

/-- The hashed addresses of the leaf events of a stream, in order. -/
def leafAddrs (evs : List AEvent) : List B256 :=
  evs.filterMap (fun ev => match ev.node with
    | .leaf a _ => some a
    | .branch _ _ _ => none)

/-- The number of leaf events in a storage node stream. -/
def sLeafCount (evs : List SEvent) : Nat :=
  (evs.filter (fun ev => match ev.node with
    | .leaf _ _ => true
    | .branch _ _ _ => false)).length

/-- The number of storage slots walked by a (successful) storage-root computation:
zero on the empty-storage short-circuit, otherwise the leaves of the stream. -/
def storageSlotCount (se : StorageEnv) : Nat :=
  match se.emptyChk with
  | .ok true => 0
  | _ => sLeafCount se.evs

/-- The total walked count a retain-updates state-root run reports for a stream:
one per account leaf plus the storage slots walked for it. -/
def walkedTotal (env : StateEnv) (evs : List AEvent) : Nat :=
  (leafAddrs evs).length + ((leafAddrs evs).map (fun a => storageSlotCount (env.storage a))).sum

/-! ### The block-range iterator of `filter.rs` -/

/-- The start points yielded by `StepBy<RangeInclusive<u64>>`: `cur, cur+stride, …`
while not exceeding `stop`.  Fueled; `stop + 1 - cur` fuel suffices for any positive
stride. -/
def stepStarts : Nat → Nat → Nat → Nat → List Nat
  | 0, _, _, _ => []
  | fuel+1, cur, stop, stride =>
    if cur ≤ stop then cur :: stepStarts fuel (cur + stride) stop stride else []

/-- The `next()` loop of `BlockRangeInclusiveIter` over the pending start points:
`end = (start + step).min(end)` with wrapping u64 addition, stopping at the first
pair with `start > end`. -/
def rangesOf (step stop : Nat) : List Nat → List (Nat × Nat)
  | [] => []
  | a :: rest =>
    if min ((a + step) % U64) stop < a then []
    else (a, min ((a + step) % U64) stop) :: rangesOf step stop rest

/-- `BlockRangeInclusiveIter::new(start..=stop, step)`, collected to a list.
`none` models the `step_by` panic when `step as usize + 1` wraps to zero. -/
def blockRangeInclusiveIter (start stop step : Nat) : Option (List (Nat × Nat)) :=
  let stride := (step % U64 + 1) % U64
  if stride = 0 then none
  else some (rangesOf step stop (stepStarts (stop + 1 - start) start stop stride))

/-- The property claimed for the iterator: the emitted inclusive ranges begin at
`start`, end at `stop`, are contiguous, ascending, and each spans at most
`step + 1` blocks. -/
def coversRange (start stop step : Nat) (ps : List (Nat × Nat)) : Prop :=
  ps.head?.map Prod.fst = some start ∧
  ps.getLast?.map Prod.snd = some stop ∧
  List.Chain' (fun x y => y.1 = x.2 + 1) ps ∧
  ∀ p ∈ ps, p.1 ≤ p.2 ∧ p.2 - p.1 ≤ step

/-! ### `get_logs_in_block_range` of `filter.rs` -/

/-- A block header as observed by the range filter: its number, parent hash and
logs bloom. -/
structure Header where
  number : Nat
  parentHash : Nat
  bloom : Nat
deriving DecidableEq

/-- A block with its receipts, reduced to what the filter consumes: its hash,
number, and the logs `append_matching_block_logs` appends for it under the fixed
filter (matching logs modelling). -/
structure BlockData where
  hash : Nat
  number : Nat
  logs : List Nat
deriving DecidableEq

/-- `FilterError` of the handler implementation. -/
inductive FilterError where
  | filterNotFound
  | queryExceedsMaxResults (n : Nat)
  | ethAPIError (e : Nat)
  | internalError
deriving DecidableEq

/-- The environment a `get_logs_in_block_range` call observes: the provider's
`headers_range`, `block_and_receipts_by_number` (keyed by parent hash or number),
the bloom-filter matches for the fixed filter, and the configured limits. -/
structure FilterEnv where
  headersRange : Nat × Nat → Except Nat (List Header)
  blockAndReceipts : Sum Nat Nat → Except Nat (Option BlockData)
  matchesAddress : Nat → Bool
  matchesTopics : Nat → Bool
  maxHeadersRange : Nat
  maxLogsPerResponse : Nat

/-- The inner header loop of `get_logs_in_block_range`: for each header (with the
next header's parent hash as its block id), if the bloom matches, fetch the block
and append its matching logs, enforcing the response limit only for multi-block
ranges. -/
def processHeaders (env : FilterEnv) (isMulti : Bool) :
    List Header → List Nat → Except FilterError (List Nat)
  | [], acc => .ok acc
  | h :: rest, acc =>
    if env.matchesAddress h.bloom && env.matchesTopics h.bloom then
      match env.blockAndReceipts (match rest with
        | h2 :: _ => .inl h2.parentHash
        | [] => .inr h.number) with
      | .error e => .error (.ethAPIError e)
      | .ok none => processHeaders env isMulti rest acc
      | .ok (some blk) =>
          if isMulti ∧ env.maxLogsPerResponse < (acc ++ blk.logs).length then
            .error (.queryExceedsMaxResults env.maxLogsPerResponse)
          else processHeaders env isMulti rest (acc ++ blk.logs)
    else processHeaders env isMulti rest acc

/-- The outer loop of `get_logs_in_block_range` over the block-range segments. -/
def processRanges (env : FilterEnv) (isMulti : Bool) :
    List (Nat × Nat) → List Nat → Except FilterError (List Nat)
  | [], acc => .ok acc
  | seg :: rest, acc =>
    match env.headersRange seg with
    | .error e => .error (.ethAPIError e)
    | .ok headers =>
      match processHeaders env isMulti headers acc with
      | .error e => .error e
      | .ok acc2 => processRanges env isMulti rest acc2

/-- `EthFilterInner::get_logs_in_block_range`.  `none` models the `step_by` panic
case of the underlying iterator. -/
def getLogsInBlockRange (env : FilterEnv) (fromBlock toBlock : Nat) :
    Option (Except FilterError (List Nat)) :=
  match blockRangeInclusiveIter fromBlock toBlock env.maxHeadersRange with
  | none => none
  | some segs => some (processRanges env (fromBlock != toBlock) segs [])

/-- The spec's words for the single-block case: the header loop with no response
limit at all. -/
def processHeadersAll (env : FilterEnv) :
    List Header → List Nat → Except FilterError (List Nat)
  | [], acc => .ok acc
  | h :: rest, acc =>
    if env.matchesAddress h.bloom && env.matchesTopics h.bloom then
      match env.blockAndReceipts (match rest with
        | h2 :: _ => .inl h2.parentHash
        | [] => .inr h.number) with
      | .error e => .error (.ethAPIError e)
      | .ok none => processHeadersAll env rest acc
      | .ok (some blk) => processHeadersAll env rest (acc ++ blk.logs)
    else processHeadersAll env rest acc

/-- The spec's words, outer loop: collect all matching logs with no limit. -/
def processRangesAll (env : FilterEnv) :
    List (Nat × Nat) → List Nat → Except FilterError (List Nat)
  | [], acc => .ok acc
  | seg :: rest, acc =>
    match env.headersRange seg with
    | .error e => .error (.ethAPIError e)
    | .ok headers =>
      match processHeadersAll env headers acc with
      | .error e => .error e
      | .ok acc2 => processRangesAll env rest acc2

/-- Whether a filter result is the query-exceeds-max-results error. -/
def isQueryLimitErr : Except FilterError (List Nat) → Bool
  | .error (.queryExceedsMaxResults _) => true
  | _ => false

/-! ### Spec model of the Merkle-Patricia trie build for the equivalence claim

Modelled from the spec: the walker, prefix sets, cached branch nodes and hash
builder (all outside the provided sources) are abstracted as a canonical trie
construction.  The root of a set of leaves is the canonical trie itself (keccak and
RLP are injective external primitives, so equality of roots is equality of these
trees).  The full computation builds the trie of the post state `S'` directly; the
incremental computation may return the cached subtree wherever the changed-prefix
set has no key below the current path, exactly the subtree-skipping rule of the
spec. -/

/-- A nibble-path key. -/
abbrev NKey := List Nat

/-- The canonical trie over a set of leaves. -/
inductive MTrie (V : Type) where
  | empty : MTrie V
  | leafN (rest : NKey) (v : V) : MTrie V
  | node (children : List (MTrie V)) : MTrie V

/-- Whether `p` is a path leading to `k` (a prefix of `k`). -/
def underPath : NKey → NKey → Bool
  | [], _ => true
  | _ :: _, [] => false
  | a :: p, b :: k => a == b && underPath p k

/-- The leaves lying below path `p`. -/
def subKVs {V : Type} (p : NKey) (kvs : List (NKey × V)) : List (NKey × V) :=
  kvs.filter (fun kv => underPath p kv.1)

/-- One build step at path `p`: empty, a leaf carrying the remaining key, or a node
with sixteen recursively built children. -/
def buildNodeStep {V : Type} (kvs : List (NKey × V)) (p : NKey) (rec : Nat → MTrie V) :
    MTrie V :=
  match subKVs p kvs with
  | [] => .empty
  | [kv] => .leafN (kv.1.drop p.length) kv.2
  | _ :: _ :: _ => .node ((List.range 16).map rec)

/-- The canonical (full) trie build of `kvs` below path `p`. -/
def buildP {V : Type} (kvs : List (NKey × V)) : Nat → NKey → MTrie V
  | 0, _ => .empty
  | fuel+1, p => buildNodeStep kvs p (fun i => buildP kvs fuel (p ++ [i]))

/-- `PrefixSet.contains(p)`: whether some changed key lies at or below path `p`. -/
def staleAt (changed : List NKey) (p : NKey) : Bool :=
  changed.any (fun c => underPath p c)

/-- The incremental build over the post state `kvs`: at a path with no changed key
below it, a cached branch node may be returned unchanged (the subtree-skipping rule
of the walker); everywhere else the subtree is rebuilt from the leaves. -/
def incBuildP {V : Type} (kvs : List (NKey × V)) (cache : NKey → Option (MTrie V))
    (changed : List NKey) : Nat → NKey → MTrie V
  | 0, _ => .empty
  | fuel+1, p =>
    if staleAt changed p then
      buildNodeStep kvs p (fun i => incBuildP kvs cache changed fuel (p ++ [i]))
    else
      match cache p with
      | some t => t
      | none => buildNodeStep kvs p (fun i => incBuildP kvs cache changed fuel (p ++ [i]))

/-- Association-list lookup by key. -/
def lookupKV {V : Type} (kvs : List (NKey × V)) (k : NKey) : Option V :=
  (kvs.find? (fun kv => kv.1 == k)).map Prod.snd

/-- The fuel that exhausts 64-nibble keys from the root. -/
def FUELC : Nat := 65

/-- A world state: hashed-address key, account, and its storage leaves. -/
abbrev WorldState := List (NKey × Acct × List (NKey × Nat))

/-- The storage leaves of the account at key `k` (empty when absent). -/
def storageOf (st : WorldState) (k : NKey) : List (NKey × Nat) :=
  match lookupKV st k with
  | some av => av.2
  | none => []

/-- The account-trie leaves of a state: each account paired with its (full) storage
trie, the abstract account leaf value. -/
def accountLeafVals (st : WorldState) : List (NKey × (Acct × MTrie Nat)) :=
  st.map (fun e => (e.1, (e.2.1, buildP e.2.2 FUELC [])))

/-- The full state-root computation over the post state. -/
def fullStateRoot (st : WorldState) : MTrie (Acct × MTrie Nat) :=
  buildP (accountLeafVals st) FUELC []

/-- The account-trie leaves computed incrementally: each storage root computed with
that account's storage cache and changed-prefix set. -/
def incAccountLeafVals (st : WorldState) (scache : NKey → NKey → Option (MTrie Nat))
    (changedS : NKey → List NKey) : List (NKey × (Acct × MTrie Nat)) :=
  st.map (fun e => (e.1, (e.2.1, incBuildP e.2.2 (scache e.1) (changedS e.1) FUELC [])))

/-- The incremental state-root computation: incremental account trie over
incrementally computed account leaf values. -/
def incStateRoot (st : WorldState) (acache : NKey → Option (MTrie (Acct × MTrie Nat)))
    (scache : NKey → NKey → Option (MTrie Nat)) (changedA : List NKey)
    (changedS : NKey → List NKey) : MTrie (Acct × MTrie Nat) :=
  incBuildP (incAccountLeafVals st scache changedS) acache changedA FUELC []

/-! ### Concrete fixtures used by the witnesses -/

/-- A concrete hash-builder model for witnesses: the root is the input count. -/
def hbm0 : HBModel := ⟨fun l => l.length, fun _ => [], fun _ => []⟩

/-- An account fixture. -/
def acct0 : Acct := ⟨1, 2, none⟩

/-- A storage environment with an empty hashed-storage table. -/
def sEnvEmpty : StorageEnv := ⟨none, .ok true, none, [], none⟩

/-- A state environment with two account leaves, one branch, one destroyed account. -/
def envA : StateEnv :=
  ⟨none, [⟨.leaf 7 acct0, []⟩, ⟨.branch [2] 5 false, []⟩, ⟨.leaf 8 acct0, []⟩], none,
    fun _ => sEnvEmpty, [11]⟩

/-- A state environment whose cursors fail to open. -/
def envErrOpen : StateEnv := ⟨some 3, [], none, fun _ => sEnvEmpty, []⟩

/-- A filter environment with one matching block of three logs and limit one. -/
def fEnv0 : FilterEnv :=
  ⟨fun _ => .ok [⟨5, 0, 1⟩], fun _ => .ok (some ⟨9, 5, [1, 2, 3]⟩),
    fun _ => true, fun _ => true, 1000, 1⟩

/-- A one-account world state for the equivalence witness. -/
def ws0 : WorldState := [([0, 1], acct0, [])]

/-- The snapshot `envA` produces at threshold one after its first leaf. -/
def st5 : IntermediateStateRootState :=
  ⟨⟨[HBInput.leaf (nibblesUnpack 7) (LeafVal.account acct0 EMPTY_ROOT_HASH)], [], true⟩,
    [⟨.branch [2] 5 false, []⟩, ⟨.leaf 8 acct0, []⟩], 7⟩

/-! ## Theorems -/

/-! ### C3: the empty-storage short-circuit -/

/-- C3: for a hashed address whose hashed-storage table is empty,
`StorageRoot::calculate` (for both retain-updates modes, hence `root` and
`root_with_updates` alike) returns exactly `(EMPTY_ROOT_HASH, 0, updates)` where
`updates` is the single entry mapping the storage-trie key of that address to
`Delete`. -/
theorem c3_empty_storage (m : HBModel) (env : StorageEnv) (addr : B256)
    (h1 : env.openErr = none) (h2 : env.emptyChk = .ok true) :
    (∀ retain, StorageRoot.calculate m env addr retain =
      .ok (EMPTY_ROOT_HASH, 0, [(TrieKey.storageTrie addr, TrieOp.delete)])) ∧
    StorageRoot.root m env addr = .ok EMPTY_ROOT_HASH ∧
    StorageRoot.rootWithUpdates m env addr =
      .ok (EMPTY_ROOT_HASH, 0, [(TrieKey.storageTrie addr, TrieOp.delete)]) := by
  have hc : ∀ retain, StorageRoot.calculate m env addr retain =
      .ok (EMPTY_ROOT_HASH, 0, [(TrieKey.storageTrie addr, TrieOp.delete)]) := by
    intro retain
    simp only [StorageRoot.calculate, h1, h2]
  exact ⟨hc, by simp only [StorageRoot.root, hc false], by
    simp only [StorageRoot.rootWithUpdates, hc true]⟩

theorem c3_empty_storage_witness :
    sEnvEmpty.openErr = none ∧ sEnvEmpty.emptyChk = .ok true ∧
    ((∀ retain, StorageRoot.calculate hbm0 sEnvEmpty 9 retain =
      .ok (EMPTY_ROOT_HASH, 0, [(TrieKey.storageTrie 9, TrieOp.delete)])) ∧
    StorageRoot.root hbm0 sEnvEmpty 9 = .ok EMPTY_ROOT_HASH ∧
    StorageRoot.rootWithUpdates hbm0 sEnvEmpty 9 =
      .ok (EMPTY_ROOT_HASH, 0, [(TrieKey.storageTrie 9, TrieOp.delete)])) :=
  ⟨rfl, rfl, c3_empty_storage hbm0 sEnvEmpty 9 rfl rfl⟩

/-! ### C4: the block-range iterator -/

theorem stepStarts_nil {fuel cur stop stride : Nat} (h : stop < cur) :
    stepStarts fuel cur stop stride = [] := by
  cases fuel with
  | zero => rfl
  | succ n => simp [stepStarts, Nat.not_le.mpr h]

theorem rangesOf_stepStarts_spec (step stop : Nat) (hov : stop + step < U64) :
    ∀ (fuel start : Nat), start ≤ stop → stop + 1 - start ≤ fuel →
      coversRange start stop step
        (rangesOf step stop (stepStarts fuel start stop (step + 1))) := by
  intro fuel
  induction fuel with
  | zero => intro start h1 h2; omega
  | succ n ih =>
    intro start h1 h2
    have hmod : (start + step) % U64 = start + step := Nat.mod_eq_of_lt (by omega)
    have hmin : start ≤ min ((start + step) % U64) stop := by
      rw [hmod]; exact le_min (by omega) h1
    rw [stepStarts, if_pos h1, rangesOf, if_neg (Nat.not_lt.mpr hmin)]
    by_cases hcase : stop ≤ start + step
    · have hrest : stepStarts n (start + (step + 1)) stop (step + 1) = [] :=
        stepStarts_nil (by omega)
      have hmin2 : min ((start + step) % U64) stop = stop := by
        rw [hmod]; exact min_eq_right hcase
      rw [hrest, hmin2]
      refine ⟨by simp, by simp [rangesOf], List.chain'_singleton _, ?_⟩
      intro p hp
      simp only [rangesOf, List.mem_singleton] at hp
      subst hp
      exact ⟨h1, by omega⟩
    · push_neg at hcase
      have hmin2 : min ((start + step) % U64) stop = start + step := by
        rw [hmod]; exact min_eq_left (le_of_lt hcase)
      rw [hmin2]
      have ihr := ih (start + (step + 1)) (by omega) (by omega)
      cases hshape : rangesOf step stop (stepStarts n (start + (step + 1)) stop (step + 1)) with
      | nil => rw [hshape] at ihr; simp [coversRange] at ihr
      | cons p₁ t =>
        rw [hshape] at ihr
        obtain ⟨ih1, ih2, ih3, ih4⟩ := ihr
        have hp₁ : p₁.1 = start + (step + 1) := by simpa using ih1
        refine ⟨by simp, ?_, ?_, ?_⟩
        · rw [show ((start, start + step) :: p₁ :: t).getLast? = (p₁ :: t).getLast? from
            List.getLast?_cons_cons]
          exact ih2
        · rw [List.chain'_cons]
          exact ⟨by omega, ih3⟩
        · intro p hp
          rcases List.mem_cons.mp hp with h | h
          · subst h; exact ⟨by omega, by omega⟩
          · exact ih4 p h

/-- C4 (counterexample): at `start = end = u64::MAX` and `step = 1` the wrapping
addition `start + self.step` makes the iterator yield no ranges at all, so the
claimed exact coverage of `[start, end]` fails. -/
theorem c4_counterexample :
    blockRangeInclusiveIter (U64 - 1) (U64 - 1) 1 = some [] ∧
    ¬ coversRange (U64 - 1) (U64 - 1) 1 [] := by
  constructor
  · decide
  · intro h
    simpa using h.1

/-- C4 (amended): for every `start ≤ end` and step `k ≥ 0` such that no u64
overflow occurs (`end + k + 1 < 2^64`), `BlockRangeInclusiveIter::new(start..=end, k)`
yields inclusive ranges that begin at `start`, end at `end`, are contiguous and
ascending, and each span at most `k + 1` blocks. -/
theorem c4_block_range (start stop step : Nat) (h1 : start ≤ stop)
    (h2 : stop + step + 1 < U64) :
    ∃ ps, blockRangeInclusiveIter start stop step = some ps ∧
      coversRange start stop step ps := by
  have hmod : step % U64 = step := Nat.mod_eq_of_lt (by omega)
  have hs1 : (step % U64 + 1) % U64 = step + 1 := by
    rw [hmod]; exact Nat.mod_eq_of_lt (by omega)
  refine ⟨rangesOf step stop (stepStarts (stop + 1 - start) start stop (step + 1)), ?_, ?_⟩
  · unfold blockRangeInclusiveIter
    simp only [hs1]
    rw [if_neg (by omega)]
  · exact rangesOf_stepStarts_spec step stop (by omega) (stop + 1 - start) start h1 le_rfl

theorem c4_block_range_witness :
    0 ≤ 5 ∧ 5 + 2 + 1 < U64 ∧
    ∃ ps, blockRangeInclusiveIter 0 5 2 = some ps ∧ coversRange 0 5 2 ps :=
  ⟨by decide, by decide, c4_block_range 0 5 2 (by decide) (by decide)⟩

/-! ### Inversion lemmas for the state-root loop -/

theorem stepEv_some {m : HBModel} {env : StateEnv} {retain : Bool} {thr : Nat}
    {s : LoopSt} {ev : AEvent} {s' : LoopSt} {a : B256}
    (h : stepEv m env retain thr s ev = .ok (s', some a)) :
    retain = true ∧ thr ≤ totalLen s' ∧ ∃ acct, ev.node = .leaf a acct := by
  cases hev : ev.node with
  | branch k v c =>
    simp only [stepEv, hev] at h
    exact absurd h (by simp)
  | leaf addr acct =>
    simp only [stepEv, hev] at h
    split at h
    · exact absurd h (by simp)
    · split at h
      · rename_i hret
        split at h
        · rename_i hcond
          simp only [Except.ok.injEq, Prod.mk.injEq, Option.some.injEq] at h
          refine ⟨hret, ?_, acct, h.2 ▸ rfl⟩
          rw [← h.1]
          exact hcond.2
        · exact absurd h (by simp)
      · rename_i hret
        rw [if_neg (fun hc => hret hc.1)] at h
        exact absurd h (by simp)

theorem stepEv_error {m : HBModel} {env : StateEnv} {retain : Bool} {thr : Nat}
    {s : LoopSt} {ev : AEvent} {e : StateRootError}
    (h : stepEv m env retain thr s ev = .error e) :
    ∃ addr acct se, ev.node = .leaf addr acct ∧ e = .storageRootError se ∧
      StorageRoot.calculate m (env.storage addr) addr retain = .error se := by
  cases hev : ev.node with
  | branch k v c =>
    simp only [stepEv, hev] at h
    exact absurd h (by simp)
  | leaf addr acct =>
    simp only [stepEv, hev] at h
    split at h
    · rename_i se heq
      simp only [Except.error.injEq] at h
      exact ⟨addr, acct, se, rfl, h.symm, heq⟩
    · exact absurd h (by simp)

theorem stepEv_flag_none {m : HBModel} {env : StateEnv} {thr : Nat}
    {s : LoopSt} {ev : AEvent} {s' : LoopSt} {f : Option B256}
    (h : stepEv m env false thr s ev = .ok (s', f)) : f = none := by
  cases f with
  | none => rfl
  | some a =>
    obtain ⟨h1, _, _⟩ := stepEv_some h
    exact absurd h1 (by simp)

theorem calcGo_progress_inv {m : HBModel} {env : StateEnv} {retain : Bool} {thr : Nat} :
    ∀ {evs : List AEvent} {s : LoopSt} {st : IntermediateStateRootState} {w : Nat}
      {u : TrieUpdates},
      calcGo m env retain thr evs s = .ok (.progress st w u) →
      ∃ pre ev rest s1 s2,
        evs = pre ++ ev :: rest ∧
        replay m env retain thr s pre = .ok s1 ∧
        stepEv m env retain thr s1 ev = .ok (s2, some st.lastAccountKey) ∧
        st = ⟨(HashBuilder.split s2.hb).1, rest, st.lastAccountKey⟩ ∧
        w = s2.walked ∧
        u = s2.trieUpd ++ s2.wPend ++ accountKeyed (HashBuilder.split s2.hb).2 := by
  intro evs
  induction evs with
  | nil =>
    intro s st w u h
    rw [calcGo] at h
    split at h
    · exact absurd h (by simp)
    · exact absurd h (by simp)
  | cons ev rest ih =>
    intro s st w u h
    rw [calcGo] at h
    split at h
    · exact absurd h (by simp)
    · rename_i s' heq
      obtain ⟨pre, ev', rest', s1, s2, h1, h2, h3, h4, h5, h6⟩ := ih h
      refine ⟨ev :: pre, ev', rest', s1, s2, by rw [h1, List.cons_append], ?_, h3, h4, h5, h6⟩
      rw [replay, heq]
      exact h2
    · rename_i s' addr heq
      simp only [Except.ok.injEq, StateRootProgress.progress.injEq] at h
      obtain ⟨hst, hw, hu⟩ := h
      refine ⟨[], ev, rest, s, s', rfl, rfl, ?_, ?_, hw.symm, hu.symm⟩
      · rw [heq, ← hst]
      · rw [← hst]

theorem calcGo_complete_inv {m : HBModel} {env : StateEnv} {retain : Bool} {thr : Nat} :
    ∀ {evs : List AEvent} {s : LoopSt} {r w : Nat} {u : TrieUpdates},
      calcGo m env retain thr evs s = .ok (.complete r w u) →
      ∃ s', replay m env retain thr s evs = .ok s' ∧ env.streamErr = none ∧
        r = m.rootOf s'.hb.inputs ∧ w = s'.walked ∧
        u = s'.trieUpd ++ s'.wPend ++ accountKeyed (hbFinalUpds m s'.hb) ++
          deleteKeyed env.destroyed := by
  intro evs
  induction evs with
  | nil =>
    intro s r w u h
    rw [calcGo] at h
    split at h
    · exact absurd h (by simp)
    · rename_i hse
      simp only [Except.ok.injEq, StateRootProgress.complete.injEq] at h
      exact ⟨s, rfl, hse, h.1.symm, h.2.1.symm, h.2.2.symm⟩
  | cons ev rest ih =>
    intro s r w u h
    rw [calcGo] at h
    split at h
    · exact absurd h (by simp)
    · rename_i s' heq
      obtain ⟨sf, h1, h2, h3, h4, h5⟩ := ih h
      refine ⟨sf, ?_, h2, h3, h4, h5⟩
      rw [replay, heq]
      exact h1
    · exact absurd h (by simp)

theorem calcGo_error_inv {m : HBModel} {env : StateEnv} {retain : Bool} {thr : Nat} :
    ∀ {evs : List AEvent} {s : LoopSt} {e : StateRootError},
      calcGo m env retain thr evs s = .error e →
      (∃ d, e = .database d ∧ env.streamErr = some d) ∨
      (∃ addr acct se, e = .storageRootError se ∧
        (∃ ev ∈ evs, ev.node = ANode.leaf addr acct) ∧
        StorageRoot.calculate m (env.storage addr) addr retain = .error se) := by
  intro evs
  induction evs with
  | nil =>
    intro s e h
    rw [calcGo] at h
    split at h
    · rename_i d hse
      simp only [Except.error.injEq] at h
      exact Or.inl ⟨d, h.symm, hse⟩
    · exact absurd h (by simp)
  | cons ev rest ih =>
    intro s e h
    rw [calcGo] at h
    split at h
    · rename_i e' heq
      simp only [Except.error.injEq] at h
      subst h
      obtain ⟨addr, acct, se, hn, herr, hsr⟩ := stepEv_error heq
      exact Or.inr ⟨addr, acct, se, herr, ⟨ev, List.mem_cons_self _ _, hn⟩, hsr⟩
    · rename_i s' heq
      rcases ih h with h' | ⟨addr, acct, se, h1, ⟨ev', hm, hn⟩, h3⟩
      · exact Or.inl h'
      · exact Or.inr ⟨addr, acct, se, h1, ⟨ev', List.mem_cons_of_mem _ hm, hn⟩, h3⟩
    · exact absurd h (by simp)

theorem replay_snoc {m : HBModel} {env : StateEnv} {retain : Bool} {thr : Nat} :
    ∀ {pre : List AEvent} {s s1 s2 : LoopSt} {ev : AEvent} {f : Option B256},
      replay m env retain thr s pre = .ok s1 →
      stepEv m env retain thr s1 ev = .ok (s2, f) →
      replay m env retain thr s (pre ++ [ev]) = .ok s2 := by
  intro pre
  induction pre with
  | nil =>
    intro s s1 s2 ev f h1 h2
    simp only [replay, Except.ok.injEq] at h1
    subst h1
    rw [List.nil_append, replay, h2]
    rfl
  | cons e t ih =>
    intro s s1 s2 ev f h1 h2
    rw [replay] at h1
    cases hse : stepEv m env retain thr s e with
    | error er => rw [hse] at h1; exact absurd h1 (by simp)
    | ok sp =>
      rw [hse] at h1
      rw [List.cons_append, replay, hse]
      exact ih h1 h2

/-! ### C5: the unique suspension point -/

/-- C5: in every run of `StateRoot::calculate`, a `Progress` result is returned only
immediately after an account leaf has been fed to the hash builder, only when
updates are retained and the pending update count
(`trie_updates.len() + walker.updates_len() + hash_builder.updates_len()`) has
reached the threshold; the snapshot's `last_account_key` is the hashed address of
that leaf, and no suspension occurs at a `Branch` node or anywhere else. -/
theorem c5_suspension_point (m : HBModel) (env : StateEnv) (retain : Bool) (thr : Nat)
    (prev : Option IntermediateStateRootState) (st : IntermediateStateRootState)
    (w : Nat) (u : TrieUpdates)
    (h : StateRoot.calculate m env retain thr prev = .ok (.progress st w u)) :
    retain = true ∧
    ∃ pre ev rest s1 s2 acct,
      initialStack env prev = pre ++ ev :: rest ∧
      ev.node = ANode.leaf st.lastAccountKey acct ∧
      replay m env retain thr (initialState retain prev) pre = .ok s1 ∧
      stepEv m env retain thr s1 ev = .ok (s2, some st.lastAccountKey) ∧
      thr ≤ totalLen s2 ∧
      st.walkerStack = rest ∧ w = s2.walked := by
  cases hoe : env.openErr with
  | some e =>
    simp only [StateRoot.calculate, hoe] at h
    exact absurd h (by simp)
  | none =>
    simp only [StateRoot.calculate, hoe] at h
    obtain ⟨pre, ev, rest, s1, s2, h1, h2, h3, h4, h5, h6⟩ := calcGo_progress_inv h
    obtain ⟨hret, hth, acct, hnode⟩ := stepEv_some h3
    refine ⟨hret, pre, ev, rest, s1, s2, acct, h1, hnode, h2, h3, hth, ?_, h5⟩
    rw [h4]

theorem c5_suspension_point_witness :
    StateRoot.calculate hbm0 envA true 1 none =
      .ok (.progress st5 1 [(TrieKey.storageTrie 7, TrieOp.delete)]) ∧
    (true = true ∧
    ∃ pre ev rest s1 s2 acct,
      initialStack envA none = pre ++ ev :: rest ∧
      ev.node = ANode.leaf st5.lastAccountKey acct ∧
      replay hbm0 envA true 1 (initialState true none) pre = .ok s1 ∧
      stepEv hbm0 envA true 1 s1 ev = .ok (s2, some st5.lastAccountKey) ∧
      1 ≤ totalLen s2 ∧
      st5.walkerStack = rest ∧ 1 = s2.walked) :=
  ⟨by decide,
   c5_suspension_point hbm0 envA true 1 none st5 1
     [(TrieKey.storageTrie 7, TrieOp.delete)] (by decide)⟩

/-! ### C9: the dead `Progress` arms -/

/-- C9: `StateRoot::root` (retain-updates disabled) can never observe a `Progress`
result, so its `unreachable!()` arm is dead; and with the `u64::MAX` threshold set
by `root_with_updates`, a `Progress` result would require the pending update count
to reach `u64::MAX`, so as long as every reachable count stays below it the arm is
unreachable. -/
theorem c9_unreachable_progress (m : HBModel) (env : StateEnv) (thr : Nat)
    (prev : Option IntermediateStateRootState) :
    hitsUnreachable (StateRoot.root m env thr prev) = false ∧
    (replayCountsBelow m env (initialStack env prev) (initialState true prev) (U64 - 1) = true →
      isProgressResult (StateRoot.calculate m env true (U64 - 1) prev) = false) := by
  constructor
  · cases hc : StateRoot.calculate m env false thr prev with
    | error e => simp [StateRoot.root, hc, hitsUnreachable]
    | ok p =>
      cases p with
      | complete r w u => simp [StateRoot.root, hc, hitsUnreachable]
      | progress st w u =>
        exfalso
        cases hoe : env.openErr with
        | some e =>
          simp only [StateRoot.calculate, hoe] at hc
          exact absurd hc (by simp)
        | none =>
          simp only [StateRoot.calculate, hoe] at hc
          obtain ⟨pre, ev, rest, s1, s2, h1, h2, h3, h4, h5, h6⟩ := calcGo_progress_inv hc
          obtain ⟨hret, _, _⟩ := stepEv_some h3
          exact absurd hret (by simp)
  · intro hall
    cases hc : StateRoot.calculate m env true (U64 - 1) prev with
    | error e => simp [isProgressResult]
    | ok p =>
      cases p with
      | complete r w u => simp [isProgressResult]
      | progress st w u =>
        exfalso
        cases hoe : env.openErr with
        | some e =>
          simp only [StateRoot.calculate, hoe] at hc
          exact absurd hc (by simp)
        | none =>
          simp only [StateRoot.calculate, hoe] at hc
          obtain ⟨pre, ev, rest, s1, s2, h1, h2, h3, h4, h5, h6⟩ := calcGo_progress_inv hc
          obtain ⟨_, hth, _, _⟩ := stepEv_some h3
          have hreplay : replay m env true (U64 - 1) (initialState true prev) (pre ++ [ev]) =
              .ok s2 := replay_snoc h2 h3
          have htake : (initialStack env prev).take (pre.length + 1) = pre ++ [ev] := by
            rw [h1, List.take_append]
            simp
          have hlt : pre.length + 1 < (initialStack env prev).length + 1 := by
            rw [h1]
            simp only [List.length_append, List.length_cons]
            omega
          have hmem := (List.all_eq_true.mp hall) (pre.length + 1) (List.mem_range.mpr hlt)
          rw [htake, hreplay] at hmem
          simp only [decide_eq_true_eq] at hmem
          omega

theorem c9_unreachable_progress_witness :
    hitsUnreachable (StateRoot.root hbm0 envA 1 none) = false ∧
    (replayCountsBelow hbm0 envA (initialStack envA none) (initialState true none)
        (U64 - 1) = true ∧
      isProgressResult (StateRoot.calculate hbm0 envA true (U64 - 1) none) = false) :=
  ⟨(c9_unreachable_progress hbm0 envA 1 none).1,
   by decide,
   (c9_unreachable_progress hbm0 envA 1 none).2 (by decide)⟩

/-! ### C6: destroyed-account deletes at `Complete` -/

theorem lookupOp_deletes (pre : TrieUpdates) (dl : List B256) {a : B256} (ha : a ∈ dl) :
    TrieUpdates.lookupOp (pre ++ deleteKeyed dl) (TrieKey.storageTrie a) =
      some TrieOp.delete := by
  unfold TrieUpdates.lookupOp
  rw [List.reverse_append, List.find?_append]
  have hmem : (TrieKey.storageTrie a, TrieOp.delete) ∈ (deleteKeyed dl).reverse := by
    rw [List.mem_reverse]
    exact List.mem_map.mpr ⟨a, ha, rfl⟩
  have hsome : ((deleteKeyed dl).reverse.find?
      (fun e => e.1 == TrieKey.storageTrie a)).isSome := by
    rw [List.find?_isSome]
    exact ⟨_, hmem, by simp⟩
  obtain ⟨x, hx⟩ := Option.isSome_iff_exists.mp hsome
  have hxop : x.2 = TrieOp.delete := by
    have hmx := List.mem_of_find?_eq_some hx
    rw [List.mem_reverse] at hmx
    obtain ⟨b, _, hb⟩ := List.mem_map.mp hmx
    rw [← hb]
  rw [hx]
  simp [Option.or, hxop]

/-- C6: whenever `StateRoot::calculate` reaches the end of the account node stream
it returns `Complete`, whose updates end with the `Delete` entries for every
destroyed account's storage trie, inserted after the walker and hash-builder
updates were drained; consequently the updates map sends every destroyed account's
storage-trie key to `Delete`. -/
theorem c6_destroyed_deletes (m : HBModel) (env : StateEnv) (retain : Bool) (thr : Nat)
    (prev : Option IntermediateStateRootState) (r w : Nat) (u : TrieUpdates)
    (h : StateRoot.calculate m env retain thr prev = .ok (.complete r w u)) :
    (∃ pre, u = pre ++ deleteKeyed env.destroyed) ∧
    ∀ a ∈ env.destroyed,
      TrieUpdates.lookupOp u (TrieKey.storageTrie a) = some TrieOp.delete := by
  cases hoe : env.openErr with
  | some e =>
    simp only [StateRoot.calculate, hoe] at h
    exact absurd h (by simp)
  | none =>
    simp only [StateRoot.calculate, hoe] at h
    obtain ⟨s', h1, h2, h3, h4, h5⟩ := calcGo_complete_inv h
    constructor
    · exact ⟨s'.trieUpd ++ s'.wPend ++ accountKeyed (hbFinalUpds m s'.hb), h5⟩
    · intro a ha
      rw [h5]
      exact lookupOp_deletes _ _ ha

theorem c6_destroyed_deletes_witness :
    StateRoot.calculate hbm0 envA true (U64 - 1) none = .ok (.complete 3 2
      [(TrieKey.storageTrie 7, TrieOp.delete), (TrieKey.storageTrie 8, TrieOp.delete),
       (TrieKey.storageTrie 11, TrieOp.delete)]) ∧
    ((∃ pre, [(TrieKey.storageTrie 7, TrieOp.delete), (TrieKey.storageTrie 8, TrieOp.delete),
       (TrieKey.storageTrie 11, TrieOp.delete)] = pre ++ deleteKeyed envA.destroyed) ∧
    ∀ a ∈ envA.destroyed,
      TrieUpdates.lookupOp
        [(TrieKey.storageTrie 7, TrieOp.delete), (TrieKey.storageTrie 8, TrieOp.delete),
         (TrieKey.storageTrie 11, TrieOp.delete)] (TrieKey.storageTrie a) =
        some TrieOp.delete) :=
  ⟨by decide, c6_destroyed_deletes hbm0 envA true (U64 - 1) none 3 2 _ (by decide)⟩

/-! ### C7: error propagation -/

/-- C7: cursor errors and nested storage-root errors are fatal: every error result
of `StateRoot::calculate` originates from a hashed/trie-cursor failure (at open or
during the walk) or from a nested storage-root computation on a leaf of the stream,
the latter wrapped as the unified `StorageRootError` variant of the state-root
error; `root`, `root_with_updates` and `root_with_progress` surface the error of
their computation unchanged, never as a `Progress` value or a partial result. -/
theorem c7_error_propagation (m : HBModel) (env : StateEnv) (retain : Bool) (thr : Nat)
    (prev : Option IntermediateStateRootState) :
    (∀ d, env.openErr = some d →
      StateRoot.calculate m env retain thr prev = .error (.database d)) ∧
    (∀ e, StateRoot.calculate m env retain thr prev = .error e →
      (∃ d, e = .database d ∧ (env.openErr = some d ∨ env.streamErr = some d)) ∨
      (∃ addr acct se, e = .storageRootError se ∧
        (∃ ev ∈ initialStack env prev, ev.node = ANode.leaf addr acct) ∧
        StorageRoot.calculate m (env.storage addr) addr retain = .error se)) ∧
    (∀ e, StateRoot.calculate m env false thr prev = .error e →
      StateRoot.root m env thr prev = .error e) ∧
    (∀ e, StateRoot.calculate m env true (U64 - 1) prev = .error e →
      StateRoot.rootWithUpdates m env prev = .error e) ∧
    (∀ e, StateRoot.calculate m env true thr prev = .error e →
      StateRoot.rootWithProgress m env thr prev = .error e) := by
  refine ⟨?_, ?_, ?_, ?_, ?_⟩
  · intro d hd
    simp only [StateRoot.calculate, hd]
  · intro e h
    cases hoe : env.openErr with
    | some d =>
      simp only [StateRoot.calculate, hoe] at h
      simp only [Except.error.injEq] at h
      exact Or.inl ⟨d, h.symm, Or.inl rfl⟩
    | none =>
      simp only [StateRoot.calculate, hoe] at h
      rcases calcGo_error_inv h with ⟨d, h1, h2⟩ | ⟨addr, acct, se, h1, h2, h3⟩
      · exact Or.inl ⟨d, h1, Or.inr h2⟩
      · exact Or.inr ⟨addr, acct, se, h1, h2, h3⟩
  · intro e h
    simp [StateRoot.root, h]
  · intro e h
    simp [StateRoot.rootWithUpdates, h]
  · intro e h
    simp [StateRoot.rootWithProgress, h]

theorem c7_error_propagation_witness :
    StateRoot.calculate hbm0 envErrOpen true 1 none = .error (.database 3) ∧
    ((∃ d, StateRootError.database 3 = .database d ∧
        (envErrOpen.openErr = some d ∨ envErrOpen.streamErr = some d)) ∨
      (∃ addr acct se, StateRootError.database 3 = .storageRootError se ∧
        (∃ ev ∈ initialStack envErrOpen none, ev.node = ANode.leaf addr acct) ∧
        StorageRoot.calculate hbm0 (envErrOpen.storage addr) addr true = .error se)) ∧
    StateRoot.root hbm0 envErrOpen 1 none = .error (.database 3) ∧
    StateRoot.rootWithUpdates hbm0 envErrOpen none = .error (.database 3) ∧
    StateRoot.rootWithProgress hbm0 envErrOpen 1 none = .error (.database 3) :=
  ⟨by decide,
   (c7_error_propagation hbm0 envErrOpen true 1 none).2.1 _ (by decide),
   (c7_error_propagation hbm0 envErrOpen true 1 none).2.2.1 _ (by decide),
   (c7_error_propagation hbm0 envErrOpen true 1 none).2.2.2.1 _ (by decide),
   (c7_error_propagation hbm0 envErrOpen true 1 none).2.2.2.2 _ (by decide)⟩

/-! ### The chunked run agrees with the single-shot run -/

theorem accountKeyed_append (a b : List (Nibbles × BranchNodeCompact)) :
    accountKeyed (a ++ b) = accountKeyed a ++ accountKeyed b :=
  List.map_append _ _ _

theorem perm_shift {α : Type} (A T₂ W₂ P₂ T₁ W₁ P₁ dT dW dP : List α)
    (h : (A ++ T₂ ++ W₂ ++ P₂).Perm (T₁ ++ W₁ ++ P₁)) :
    (A ++ (T₂ ++ dT) ++ (W₂ ++ dW) ++ (P₂ ++ dP)).Perm
      ((T₁ ++ dT) ++ (W₁ ++ dW) ++ (P₁ ++ dP)) := by
  rw [← Multiset.coe_eq_coe] at h ⊢
  simp only [← Multiset.coe_add] at h ⊢
  calc (↑A + (↑T₂ + ↑dT) + (↑W₂ + ↑dW) + (↑P₂ + ↑dP) : Multiset α)
      = (↑A + ↑T₂ + ↑W₂ + ↑P₂) + (↑dT + ↑dW + ↑dP) := by abel
    _ = (↑T₁ + ↑W₁ + ↑P₁) + (↑dT + ↑dW + ↑dP) := by rw [h]
    _ = (↑T₁ + ↑dT) + (↑W₁ + ↑dW) + (↑P₁ + ↑dP) := by abel

theorem stepEv_branch_eq (m : HBModel) (env : StateEnv) (thr : Nat) (s : LoopSt)
    (ev : AEvent) (k : Nibbles) (v : Nat) (c : Bool) (hev : ev.node = .branch k v c) :
    stepEv m env true thr s ev =
      .ok ({ trieUpd := s.trieUpd, wPend := s.wPend ++ ev.wUpd,
             hb := s.hb.add m (HBInput.branch k v c), walked := s.walked }, none) := by
  simp [stepEv, hev]

theorem stepEv_leaf_eq (m : HBModel) (env : StateEnv) (thr : Nat) (s : LoopSt)
    (ev : AEvent) (addr : B256) (acct : Acct) (res : Nat × Nat × TrieUpdates)
    (hev : ev.node = .leaf addr acct)
    (hsr : StorageRoot.calculate m (env.storage addr) addr true = .ok res) :
    stepEv m env true thr s ev =
      .ok (leafState m s ev addr acct res,
        if thr ≤ totalLen (leafState m s ev addr acct res) then some addr else none) := by
  simp [stepEv, hev, hsr, leafState]

theorem stepEv_leaf_err (m : HBModel) (env : StateEnv) (thr : Nat) (s : LoopSt)
    (ev : AEvent) (addr : B256) (acct : Acct) (e : StorageRootError)
    (hev : ev.node = .leaf addr acct)
    (hsr : StorageRoot.calculate m (env.storage addr) addr true = .error e) :
    stepEv m env true thr s ev = .error (.storageRootError e) := by
  simp [stepEv, hev, hsr]

theorem chunk_master (m : HBModel) (env : StateEnv) (thr : Nat) :
    ∀ (evs : List AEvent) (sF sS : LoopSt) (accW : Nat) (accU : TrieUpdates)
      (fuel r w : Nat) (u : TrieUpdates),
      sS.hb.inputs = sF.hb.inputs → sS.hb.retain = true → sF.hb.retain = true →
      accW + sS.walked = sF.walked →
      (accU ++ sS.trieUpd ++ sS.wPend ++ accountKeyed sS.hb.pending).Perm
        (sF.trieUpd ++ sF.wPend ++ accountKeyed sF.hb.pending) →
      calcGo m env true (U64 - 1) evs sF = .ok (.complete r w u) →
      evs.length < fuel →
      ∃ u', chunkAux m env thr fuel evs sS accW accU = .ok (some (r, w, u')) ∧ u'.Perm u := by
  intro evs
  induction evs with
  | nil =>
    intro sF sS accW accU fuel r w u hinp hrS hrF hw hperm hfull hfuel
    cases fuel with
    | zero => omega
    | succ fl =>
      cases hse : env.streamErr with
      | some e =>
        simp only [calcGo, hse] at hfull
        exact absurd hfull (by simp)
      | none =>
        simp only [calcGo, hse, Except.ok.injEq, StateRootProgress.complete.injEq] at hfull
        obtain ⟨hr, hw', hu⟩ := hfull
        have hfS : hbFinalUpds m sS.hb = sS.hb.pending ++ m.rootUpdOf sF.hb.inputs := by
          rw [hbFinalUpds, hrS, if_pos rfl, hinp]
        have hfF : hbFinalUpds m sF.hb = sF.hb.pending ++ m.rootUpdOf sF.hb.inputs := by
          rw [hbFinalUpds, hrF, if_pos rfl]
        refine ⟨accU ++ (sS.trieUpd ++ sS.wPend ++ accountKeyed (hbFinalUpds m sS.hb) ++
          deleteKeyed env.destroyed), ?_, ?_⟩
        · simp only [chunkAux, calcGo, hse]
          rw [hinp, hr, hw, hw']
        · rw [← hu, hfS, hfF, accountKeyed_append, accountKeyed_append]
          have h2 := hperm.append_right
            (accountKeyed (m.rootUpdOf sF.hb.inputs) ++ deleteKeyed env.destroyed)
          simpa only [List.append_assoc] using h2
  | cons ev rest ih =>
    intro sF sS accW accU fuel r w u hinp hrS hrF hw hperm hfull hfuel
    cases fuel with
    | zero => omega
    | succ fl =>
      rw [calcGo] at hfull
      cases hev : ev.node with
      | branch k v c =>
        rw [stepEv_branch_eq m env (U64 - 1) sF ev k v c hev] at hfull
        have hfull' : calcGo m env true (U64 - 1) rest
            { trieUpd := sF.trieUpd, wPend := sF.wPend ++ ev.wUpd,
              hb := sF.hb.add m (HBInput.branch k v c), walked := sF.walked } =
            .ok (.complete r w u) := hfull
        have hcg : calcGo m env true thr (ev :: rest) sS = calcGo m env true thr rest
            { trieUpd := sS.trieUpd, wPend := sS.wPend ++ ev.wUpd,
              hb := sS.hb.add m (HBInput.branch k v c), walked := sS.walked } := by
          rw [calcGo, stepEv_branch_eq m env thr sS ev k v c hev]
        have hca : chunkAux m env thr (fl + 1) (ev :: rest) sS accW accU =
            chunkAux m env thr (fl + 1) rest
              { trieUpd := sS.trieUpd, wPend := sS.wPend ++ ev.wUpd,
                hb := sS.hb.add m (HBInput.branch k v c), walked := sS.walked } accW accU := by
          simp only [chunkAux, hcg]
        rw [hca]
        refine ih
          { trieUpd := sF.trieUpd, wPend := sF.wPend ++ ev.wUpd,
            hb := sF.hb.add m (HBInput.branch k v c), walked := sF.walked }
          { trieUpd := sS.trieUpd, wPend := sS.wPend ++ ev.wUpd,
            hb := sS.hb.add m (HBInput.branch k v c), walked := sS.walked }
          accW accU (fl + 1) r w u ?_ ?_ ?_ hw ?_ hfull' ?_
        · simp [HashBuilder.add, hinp]
        · simp [HashBuilder.add, hrS]
        · simp [HashBuilder.add, hrF]
        · have hdP : ∀ hb : HashBuilder, hb.retain = true →
              (hb.add m (HBInput.branch k v c)).pending =
                hb.pending ++ m.updOf (HBInput.branch k v c) := by
            intro hb hr
            rw [HashBuilder.add, hr]
            simp
          have hperm2 := perm_shift accU sS.trieUpd sS.wPend (accountKeyed sS.hb.pending)
            sF.trieUpd sF.wPend (accountKeyed sF.hb.pending) [] ev.wUpd
            (accountKeyed (m.updOf (HBInput.branch k v c))) hperm
          simp only [hdP sS.hb hrS, hdP sF.hb hrF, accountKeyed_append]
          simpa only [List.append_nil, List.append_assoc] using hperm2
        · simp only [List.length_cons] at hfuel
          omega
      | leaf addr acct =>
        cases hsr : StorageRoot.calculate m (env.storage addr) addr true with
        | error e =>
          rw [stepEv_leaf_err m env (U64 - 1) sF ev addr acct e hev hsr] at hfull
          exact absurd hfull (by simp)
        | ok res =>
          rw [stepEv_leaf_eq m env (U64 - 1) sF ev addr acct res hev hsr] at hfull
          by_cases hflagF : U64 - 1 ≤ totalLen (leafState m sF ev addr acct res)
          · rw [if_pos hflagF] at hfull
            exact absurd hfull (by simp)
          · rw [if_neg hflagF] at hfull
            have hfull' : calcGo m env true (U64 - 1) rest (leafState m sF ev addr acct res) =
                .ok (.complete r w u) := hfull
            have hinp3 : (leafState m sS ev addr acct res).hb.inputs =
                (leafState m sF ev addr acct res).hb.inputs := by
              simp [leafState, HashBuilder.add, hinp]
            have hrS3 : (leafState m sS ev addr acct res).hb.retain = true := by
              simp [leafState, HashBuilder.add, hrS]
            have hrF3 : (leafState m sF ev addr acct res).hb.retain = true := by
              simp [leafState, HashBuilder.add, hrF]
            have hw3 : accW + (leafState m sS ev addr acct res).walked =
                (leafState m sF ev addr acct res).walked := by
              simp only [leafState]
              omega
            have hdP : ∀ hb : HashBuilder, hb.retain = true →
                (hb.add m (HBInput.leaf (nibblesUnpack addr) (LeafVal.account acct res.1))).pending
                  = hb.pending ++ m.updOf (HBInput.leaf (nibblesUnpack addr)
                    (LeafVal.account acct res.1)) := by
              intro hb hr
              rw [HashBuilder.add, hr]
              simp
            have hperm3 : (accU ++ (leafState m sS ev addr acct res).trieUpd ++
                (leafState m sS ev addr acct res).wPend ++
                accountKeyed (leafState m sS ev addr acct res).hb.pending).Perm
                ((leafState m sF ev addr acct res).trieUpd ++
                  (leafState m sF ev addr acct res).wPend ++
                  accountKeyed (leafState m sF ev addr acct res).hb.pending) := by
              have hperm2 := perm_shift accU sS.trieUpd sS.wPend (accountKeyed sS.hb.pending)
                sF.trieUpd sF.wPend (accountKeyed sF.hb.pending) res.2.2 ev.wUpd
                (accountKeyed (m.updOf (HBInput.leaf (nibblesUnpack addr)
                  (LeafVal.account acct res.1)))) hperm
              simp only [leafState, hdP sS.hb hrS, hdP sF.hb hrF, accountKeyed_append]
              simpa only [List.append_assoc] using hperm2
            by_cases hflagS : thr ≤ totalLen (leafState m sS ev addr acct res)
            · have hcg : calcGo m env true thr (ev :: rest) sS = .ok (.progress
                  ⟨(HashBuilder.split (leafState m sS ev addr acct res).hb).1, rest, addr⟩
                  (leafState m sS ev addr acct res).walked
                  ((leafState m sS ev addr acct res).trieUpd ++
                    (leafState m sS ev addr acct res).wPend ++
                    accountKeyed (HashBuilder.split (leafState m sS ev addr acct res).hb).2)) := by
                rw [calcGo, stepEv_leaf_eq m env thr sS ev addr acct res hev hsr, if_pos hflagS]
              have hca : chunkAux m env thr (fl + 1) (ev :: rest) sS accW accU =
                  chunkAux m env thr fl rest
                    (resumeLoopSt true
                      ⟨(HashBuilder.split (leafState m sS ev addr acct res).hb).1, rest, addr⟩)
                    (accW + (leafState m sS ev addr acct res).walked)
                    (accU ++ ((leafState m sS ev addr acct res).trieUpd ++
                      (leafState m sS ev addr acct res).wPend ++
                      accountKeyed (HashBuilder.split (leafState m sS ev addr acct res).hb).2)) := by
                simp only [chunkAux, hcg]
              rw [hca]
              refine ih (leafState m sF ev addr acct res)
                (resumeLoopSt true
                  ⟨(HashBuilder.split (leafState m sS ev addr acct res).hb).1, rest, addr⟩)
                (accW + (leafState m sS ev addr acct res).walked)
                (accU ++ ((leafState m sS ev addr acct res).trieUpd ++
                  (leafState m sS ev addr acct res).wPend ++
                  accountKeyed (HashBuilder.split (leafState m sS ev addr acct res).hb).2))
                fl r w u ?_ ?_ hrF3 ?_ ?_ hfull' ?_
              · simp only [resumeLoopSt, HashBuilder.split]
                exact hinp3
              · simp [resumeLoopSt]
              · simp only [resumeLoopSt]
                simpa using hw3
              · simp only [resumeLoopSt, HashBuilder.split, accountKeyed, List.map_nil,
                  List.append_nil]
                simpa only [List.append_assoc] using hperm3
              · simp only [List.length_cons] at hfuel
                omega
            · have hcg : calcGo m env true thr (ev :: rest) sS =
                  calcGo m env true thr rest (leafState m sS ev addr acct res) := by
                rw [calcGo, stepEv_leaf_eq m env thr sS ev addr acct res hev hsr, if_neg hflagS]
              have hca : chunkAux m env thr (fl + 1) (ev :: rest) sS accW accU =
                  chunkAux m env thr (fl + 1) rest (leafState m sS ev addr acct res) accW accU := by
                simp only [chunkAux, hcg]
              rw [hca]
              refine ih (leafState m sF ev addr acct res) (leafState m sS ev addr acct res)
                accW accU (fl + 1) r w u hinp3 hrS3 hrF3 hw3 hperm3 hfull' ?_
              simp only [List.length_cons] at hfuel
              omega

theorem runWithProgress_eq_chunkAux (m : HBModel) (env : StateEnv) (thr : Nat)
    (hoe : env.openErr = none) :
    ∀ (fuel : Nat) (prev : Option IntermediateStateRootState) (accW : Nat)
      (accU : TrieUpdates),
      runWithProgress m env thr fuel prev accW accU =
        chunkAux m env thr fuel (initialStack env prev) (initialState true prev) accW accU := by
  intro fuel
  induction fuel with
  | zero => intro prev accW accU; rfl
  | succ fl ih =>
    intro prev accW accU
    rw [runWithProgress, chunkAux]
    have hc : StateRoot.rootWithProgress m env thr prev =
        calcGo m env true thr (initialStack env prev) (initialState true prev) := by
      rw [StateRoot.rootWithProgress, StateRoot.calculate, hoe]
    rw [hc]
    cases calcGo m env true thr (initialStack env prev) (initialState true prev) with
    | error e => rfl
    | ok p =>
      cases p with
      | complete r w u => rfl
      | progress st w u => exact ih (some st) (accW + w) (accU ++ u)

theorem rootWithUpdates_complete {m : HBModel} {env : StateEnv}
    {prev : Option IntermediateStateRootState} {r : Nat} {u : TrieUpdates}
    (h : StateRoot.rootWithUpdates m env prev = .ok (some (r, u))) :
    env.openErr = none ∧ ∃ w, StateRoot.calculate m env true (U64 - 1) prev =
      .ok (.complete r w u) := by
  rw [StateRoot.rootWithUpdates] at h
  cases hc : StateRoot.calculate m env true (U64 - 1) prev with
  | error e => rw [hc] at h; exact absurd h (by simp)
  | ok p =>
    cases p with
    | progress st w u' => rw [hc] at h; exact absurd h (by simp)
    | complete r' w u' =>
      rw [hc] at h
      simp only [Except.ok.injEq, Option.some.injEq, Prod.mk.injEq] at h
      refine ⟨?_, w, by rw [h.1, h.2]⟩
      cases hoe : env.openErr with
      | none => rfl
      | some e =>
        simp only [StateRoot.calculate, hoe] at hc
        exact absurd hc (by simp)

/-! ### C2: resumability -/

/-- C2: for any threshold `t ≥ 1`, repeatedly calling `root_with_progress` and
feeding each `Progress` snapshot into the next call via `with_intermediate_state`
terminates with `Complete` within one segment per event, and the final root
together with the concatenation of the updates drained across all segments equals
(as the multiset backing the last-write-wins updates map) the `(root, updates)`
pair of a single `root_with_updates` call with threshold `u64::MAX`. -/
theorem c2_resumability (m : HBModel) (env : StateEnv) (thr : Nat) (r : Nat)
    (u : TrieUpdates) (_hthr : 1 ≤ thr)
    (h : StateRoot.rootWithUpdates m env none = .ok (some (r, u))) :
    ∃ w upds,
      runWithProgress m env thr (env.evs.length + 1) none 0 [] = .ok (some (r, w, upds)) ∧
      upds.Perm u := by
  obtain ⟨hoe, w, hc⟩ := rootWithUpdates_complete h
  have hcg : calcGo m env true (U64 - 1) env.evs (initLoopSt true) =
      .ok (.complete r w u) := by
    simpa only [StateRoot.calculate, hoe, initialStack, initialState] using hc
  obtain ⟨u', hchunk, hperm⟩ := chunk_master m env thr env.evs (initLoopSt true)
    (initLoopSt true) 0 [] (env.evs.length + 1) r w u rfl rfl rfl rfl (by simp) hcg
    (by omega)
  refine ⟨w, u', ?_, hperm⟩
  rw [runWithProgress_eq_chunkAux m env thr hoe]
  exact hchunk

theorem c2_resumability_witness :
    1 ≤ 1 ∧
    StateRoot.rootWithUpdates hbm0 envA none = .ok (some (3,
      [(TrieKey.storageTrie 7, TrieOp.delete), (TrieKey.storageTrie 8, TrieOp.delete),
       (TrieKey.storageTrie 11, TrieOp.delete)])) ∧
    ∃ w upds,
      runWithProgress hbm0 envA 1 (envA.evs.length + 1) none 0 [] =
        .ok (some (3, w, upds)) ∧
      upds.Perm [(TrieKey.storageTrie 7, TrieOp.delete), (TrieKey.storageTrie 8, TrieOp.delete),
       (TrieKey.storageTrie 11, TrieOp.delete)] :=
  ⟨by decide, by decide, c2_resumability hbm0 envA 1 3 _ (by decide) (by decide)⟩

/-! ### C8: the walked counts -/

theorem sLeafCount_cons_branch {ev : SEvent} {rest : List SEvent} {k : Nibbles} {v : Nat}
    {c : Bool} (hev : ev.node = SNode.branch k v c) :
    sLeafCount (ev :: rest) = sLeafCount rest := by
  simp [sLeafCount, List.filter_cons, hev]

theorem sLeafCount_cons_leaf {ev : SEvent} {rest : List SEvent} {s : B256} {v : Nat}
    (hev : ev.node = SNode.leaf s v) :
    sLeafCount (ev :: rest) = sLeafCount rest + 1 := by
  simp [sLeafCount, List.filter_cons, hev]

theorem storageCalcGo_slots (m : HBModel) (retain : Bool) :
    ∀ (evs : List SEvent) (hb : HashBuilder) (wp : TrieUpdates) (n : Nat),
      (storageCalcGo m retain evs hb wp n).2.2 = n + sLeafCount evs := by
  intro evs
  induction evs with
  | nil =>
    intro hb wp n
    simp [storageCalcGo, sLeafCount]
  | cons ev rest ih =>
    intro hb wp n
    cases hev : ev.node with
    | branch k v c =>
      have hstep : storageCalcGo m retain (ev :: rest) hb wp n =
          storageCalcGo m retain rest (hb.add m (.branch k v c))
            (wp ++ (if retain then ev.wUpd else [])) n := by
        rw [storageCalcGo, hev]
      rw [hstep, ih, sLeafCount_cons_branch hev]
    | leaf s v =>
      have hstep : storageCalcGo m retain (ev :: rest) hb wp n =
          storageCalcGo m retain rest (hb.add m (.leaf (nibblesUnpack s) (.slot v)))
            (wp ++ (if retain then ev.wUpd else [])) (n + 1) := by
        rw [storageCalcGo, hev]
      rw [hstep, ih, sLeafCount_cons_leaf hev]
      omega

theorem storage_slots {m : HBModel} {se : StorageEnv} {addr : B256} {retain : Bool}
    {res : Nat × Nat × TrieUpdates}
    (h : StorageRoot.calculate m se addr retain = .ok res) :
    res.2.1 = storageSlotCount se := by
  rw [StorageRoot.calculate] at h
  split at h
  · exact absurd h (by simp)
  · split at h
    · exact absurd h (by simp)
    · rename_i hchk
      simp only [Except.ok.injEq] at h
      rw [← h]
      simp [storageSlotCount, hchk]
    · rename_i hchk
      split at h
      · exact absurd h (by simp)
      · split at h
        · exact absurd h (by simp)
        · simp only [Except.ok.injEq] at h
          rw [← h]
          simp only [storageSlotCount, hchk]
          simpa using storageCalcGo_slots m retain se.evs ⟨[], [], retain⟩ [] 0

theorem walkedTotal_cons_branch {env : StateEnv} {ev : AEvent} {rest : List AEvent}
    {k : Nibbles} {v : Nat} {c : Bool} (hev : ev.node = ANode.branch k v c) :
    walkedTotal env (ev :: rest) = walkedTotal env rest := by
  simp [walkedTotal, leafAddrs, List.filterMap_cons, hev]

theorem walkedTotal_cons_leaf {env : StateEnv} {ev : AEvent} {rest : List AEvent}
    {addr : B256} {acct : Acct} (hev : ev.node = ANode.leaf addr acct) :
    walkedTotal env (ev :: rest) =
      1 + storageSlotCount (env.storage addr) + walkedTotal env rest := by
  simp only [walkedTotal, leafAddrs, List.filterMap_cons, hev]
  simp [List.length_cons, List.map_cons, List.sum_cons]
  omega

theorem calcGo_complete_walked (m : HBModel) (env : StateEnv) (thr : Nat) :
    ∀ (evs : List AEvent) (s : LoopSt) (r w : Nat) (u : TrieUpdates),
      calcGo m env true thr evs s = .ok (.complete r w u) →
      w = s.walked + walkedTotal env evs := by
  intro evs
  induction evs with
  | nil =>
    intro s r w u h
    cases hse : env.streamErr with
    | some e =>
      simp only [calcGo, hse] at h
      exact absurd h (by simp)
    | none =>
      simp only [calcGo, hse, Except.ok.injEq, StateRootProgress.complete.injEq] at h
      rw [← h.2.1]
      simp [walkedTotal, leafAddrs]
  | cons ev rest ih =>
    intro s r w u h
    rw [calcGo] at h
    cases hev : ev.node with
    | branch k v c =>
      rw [stepEv_branch_eq m env thr s ev k v c hev] at h
      have h' : calcGo m env true thr rest
          { trieUpd := s.trieUpd, wPend := s.wPend ++ ev.wUpd,
            hb := s.hb.add m (HBInput.branch k v c), walked := s.walked } =
          .ok (.complete r w u) := h
      have hx := ih _ r w u h'
      rw [hx, walkedTotal_cons_branch hev]
    | leaf addr acct =>
      cases hsr : StorageRoot.calculate m (env.storage addr) addr true with
      | error e =>
        rw [stepEv_leaf_err m env thr s ev addr acct e hev hsr] at h
        exact absurd h (by simp)
      | ok res =>
        rw [stepEv_leaf_eq m env thr s ev addr acct res hev hsr] at h
        by_cases hflag : thr ≤ totalLen (leafState m s ev addr acct res)
        · rw [if_pos hflag] at h
          exact absurd h (by simp)
        · rw [if_neg hflag] at h
          have h' : calcGo m env true thr rest (leafState m s ev addr acct res) =
              .ok (.complete r w u) := h
          have hx := ih _ r w u h'
          have hslots := storage_slots hsr
          rw [hx, walkedTotal_cons_leaf hev]
          simp only [leafState]
          omega

/-- C8: in a retain-updates computation, the sum of the walked counts across all
`Progress` segments and the final `Complete` equals the number of account leaves
plus the total number of storage slots walked across their storage roots, and the
final root equals the root of the single uninterrupted computation. -/
theorem c8_walked_count (m : HBModel) (env : StateEnv) (thr : Nat) (r : Nat)
    (u : TrieUpdates) (_hthr : 1 ≤ thr)
    (h : StateRoot.rootWithUpdates m env none = .ok (some (r, u))) :
    ∃ upds, runWithProgress m env thr (env.evs.length + 1) none 0 [] =
      .ok (some (r, walkedTotal env env.evs, upds)) := by
  obtain ⟨hoe, w, hc⟩ := rootWithUpdates_complete h
  have hcg : calcGo m env true (U64 - 1) env.evs (initLoopSt true) =
      .ok (.complete r w u) := by
    simpa only [StateRoot.calculate, hoe, initialStack, initialState] using hc
  have hwEq : w = walkedTotal env env.evs := by
    have hx := calcGo_complete_walked m env (U64 - 1) env.evs (initLoopSt true) r w u hcg
    simpa [initLoopSt] using hx
  obtain ⟨u', hchunk, _⟩ := chunk_master m env thr env.evs (initLoopSt true)
    (initLoopSt true) 0 [] (env.evs.length + 1) r w u rfl rfl rfl rfl (by simp) hcg
    (by omega)
  refine ⟨u', ?_⟩
  rw [runWithProgress_eq_chunkAux m env thr hoe, ← hwEq]
  exact hchunk

theorem c8_walked_count_witness :
    1 ≤ 1 ∧
    StateRoot.rootWithUpdates hbm0 envA none = .ok (some (3,
      [(TrieKey.storageTrie 7, TrieOp.delete), (TrieKey.storageTrie 8, TrieOp.delete),
       (TrieKey.storageTrie 11, TrieOp.delete)])) ∧
    ∃ upds, runWithProgress hbm0 envA 1 (envA.evs.length + 1) none 0 [] =
      .ok (some (3, walkedTotal envA envA.evs, upds)) :=
  ⟨by decide, by decide, c8_walked_count hbm0 envA 1 3
    [(TrieKey.storageTrie 7, TrieOp.delete), (TrieKey.storageTrie 8, TrieOp.delete),
     (TrieKey.storageTrie 11, TrieOp.delete)] (by decide) (by decide)⟩

/-! ### C10: the single-block case of `get_logs_in_block_range` -/

theorem processHeaders_false_eq (env : FilterEnv) :
    ∀ (hs : List Header) (acc : List Nat),
      processHeaders env false hs acc = processHeadersAll env hs acc := by
  intro hs
  induction hs with
  | nil => intro acc; rfl
  | cons h rest ih =>
    intro acc
    simp only [processHeaders, processHeadersAll]
    by_cases hm : (env.matchesAddress h.bloom && env.matchesTopics h.bloom) = true
    · rw [if_pos hm, if_pos hm]
      split
      · rfl
      · exact ih acc
      · rename_i blk heq
        rw [if_neg (by simp)]
        exact ih (acc ++ blk.logs)
    · rw [if_neg hm, if_neg hm]
      exact ih acc

theorem processRanges_false_eq (env : FilterEnv) :
    ∀ (segs : List (Nat × Nat)) (acc : List Nat),
      processRanges env false segs acc = processRangesAll env segs acc := by
  intro segs
  induction segs with
  | nil => intro acc; rfl
  | cons seg rest ih =>
    intro acc
    simp only [processRanges, processRangesAll]
    split
    · rfl
    · rw [processHeaders_false_eq]
      split
      · rfl
      · rename_i acc2 heq
        exact ih acc2

theorem processHeadersAll_no_limit (env : FilterEnv) :
    ∀ (hs : List Header) (acc : List Nat),
      isQueryLimitErr (processHeadersAll env hs acc) = false := by
  intro hs
  induction hs with
  | nil => intro acc; rfl
  | cons h rest ih =>
    intro acc
    simp only [processHeadersAll]
    by_cases hm : (env.matchesAddress h.bloom && env.matchesTopics h.bloom) = true
    · rw [if_pos hm]
      split
      · rfl
      · exact ih acc
      · rename_i blk heq
        exact ih (acc ++ blk.logs)
    · rw [if_neg hm]
      exact ih acc

theorem processRangesAll_no_limit (env : FilterEnv) :
    ∀ (segs : List (Nat × Nat)) (acc : List Nat),
      isQueryLimitErr (processRangesAll env segs acc) = false := by
  intro segs
  induction segs with
  | nil => intro acc; rfl
  | cons seg rest ih =>
    intro acc
    simp only [processRangesAll]
    split
    · rfl
    · rename_i headers hh
      split
      · rename_i e hph
        have hx := processHeadersAll_no_limit env headers acc
        rw [hph] at hx
        exact hx
      · rename_i acc2 hph
        exact ih acc2

/-- C10: a `get_logs_in_block_range` call with `from_block = to_block` never
returns the query-exceeds-max-results error; its result is exactly the limit-free
collection of all matching logs of the block, since the response limit is checked
only for multi-block ranges. -/
theorem c10_single_block_no_limit (env : FilterEnv) (b : Nat) :
    (∀ r, getLogsInBlockRange env b b = some r → isQueryLimitErr r = false) ∧
    getLogsInBlockRange env b b =
      (blockRangeInclusiveIter b b env.maxHeadersRange).map
        (fun segs => processRangesAll env segs []) := by
  have hbe : (b != b) = false := by simp
  cases hit : blockRangeInclusiveIter b b env.maxHeadersRange with
  | none =>
    constructor
    · intro r hr
      rw [getLogsInBlockRange, hit] at hr
      exact absurd hr (by simp)
    · rw [getLogsInBlockRange, hit]
      rfl
  | some segs =>
    have hval : getLogsInBlockRange env b b = some (processRangesAll env segs []) := by
      rw [getLogsInBlockRange, hit, hbe]
      show some (processRanges env false segs []) = _
      rw [processRanges_false_eq]
    constructor
    · intro r hr
      rw [hval] at hr
      simp only [Option.some.injEq] at hr
      rw [← hr]
      exact processRangesAll_no_limit env segs []
    · rw [hval]
      rfl

theorem c10_single_block_no_limit_witness :
    getLogsInBlockRange fEnv0 5 5 = some (.ok [1, 2, 3]) ∧
    isQueryLimitErr (.ok [1, 2, 3]) = false ∧
    getLogsInBlockRange fEnv0 5 5 =
      (blockRangeInclusiveIter 5 5 fEnv0.maxHeadersRange).map
        (fun segs => processRangesAll fEnv0 segs []) :=
  ⟨by decide,
   (c10_single_block_no_limit fEnv0 5).1 (.ok [1, 2, 3]) (by decide),
   (c10_single_block_no_limit fEnv0 5).2⟩

/-! ### C1: incremental state root equals full recomputation -/

theorem underPath_of_append {q : NKey} : ∀ {p k : NKey},
    underPath (p ++ q) k = true → underPath p k = true := by
  intro p
  induction p with
  | nil => intro k _; rfl
  | cons a p ih =>
    intro k h
    cases k with
    | nil => exact absurd h (by simp [underPath])
    | cons b k =>
      rw [List.cons_append, underPath] at h
      rw [underPath]
      simp only [Bool.and_eq_true] at h ⊢
      exact ⟨h.1, ih h.2⟩

theorem subKVs_absorb {V : Type} (p : NKey) (i : Nat) (kvs : List (NKey × V)) :
    subKVs (p ++ [i]) (subKVs p kvs) = subKVs (p ++ [i]) kvs := by
  unfold subKVs
  rw [List.filter_filter]
  apply List.filter_congr
  intro kv _
  cases h : underPath (p ++ [i]) kv.1 with
  | false => simp
  | true => simp [underPath_of_append h]

theorem lookupKV_cons {V : Type} (a : NKey × V) (l : List (NKey × V)) (k : NKey) :
    lookupKV (a :: l) k = if a.1 == k then some a.2 else lookupKV l k := by
  cases h : (a.1 == k) <;> simp [lookupKV, List.find?_cons, h]

theorem lookupKV_mem {V : Type} {l : List (NKey × V)} {k : NKey} {v : V}
    (h : lookupKV l k = some v) : k ∈ l.map Prod.fst := by
  unfold lookupKV at h
  cases hf : l.find? (fun kv => kv.1 == k) with
  | none => rw [hf] at h; exact absurd h (by simp)
  | some e =>
    have hm := List.mem_of_find?_eq_some hf
    have hp := List.find?_some hf
    simp only [beq_iff_eq] at hp
    rw [← hp]
    exact List.mem_map.mpr ⟨e, hm, rfl⟩

theorem lookup_subKVs {V : Type} (p : NKey) (k : NKey) :
    ∀ (l : List (NKey × V)),
      lookupKV (subKVs p l) k =
        if underPath p k = true then lookupKV l k else none := by
  intro l
  induction l with
  | nil => simp [subKVs, lookupKV]
  | cons a l ih =>
    rw [show subKVs p (a :: l) =
      if underPath p a.1 then a :: subKVs p l else subKVs p l from List.filter_cons]
    by_cases hu : underPath p a.1 = true
    · rw [if_pos hu, lookupKV_cons, lookupKV_cons]
      by_cases hk : (a.1 == k) = true
      · have : underPath p k = true := by
          simp only [beq_iff_eq] at hk
          rw [← hk]
          exact hu
        rw [if_pos hk, if_pos this, if_pos hk]
      · rw [if_neg hk, if_neg hk] at *
        rw [ih]
    · rw [if_neg hu, ih, lookupKV_cons]
      by_cases hpk : underPath p k = true
      · rw [if_pos hpk, if_pos hpk]
        have hk : (a.1 == k) = false := by
          cases hbe : (a.1 == k) with
          | false => rfl
          | true =>
            simp only [beq_iff_eq] at hbe
            rw [hbe] at hu
            exact absurd hpk hu
        rw [hk]
        simp
      · rw [if_neg hpk, if_neg hpk]

theorem lookupKV_none_of_lt {V : Type} {l : List (NKey × V)} {k : NKey}
    (hk : ∀ x ∈ l.map Prod.fst, k < x) : lookupKV l k = none := by
  cases hf : lookupKV l k with
  | none => rfl
  | some v =>
    have hm := lookupKV_mem hf
    exact absurd (hk k hm) (lt_irrefl k)

theorem lookup_ext {V : Type} :
    ∀ (l₁ l₂ : List (NKey × V)),
      (l₁.map Prod.fst).Sorted (· < ·) → (l₂.map Prod.fst).Sorted (· < ·) →
      (∀ k, lookupKV l₁ k = lookupKV l₂ k) → l₁ = l₂ := by
  intro l₁
  induction l₁ with
  | nil =>
    intro l₂ _ hs₂ h
    cases l₂ with
    | nil => rfl
    | cons b t₂ =>
      have hb := h b.1
      rw [lookupKV_cons] at hb
      simp only [beq_self_eq_true, if_pos] at hb
      exact absurd hb.symm (by simp [lookupKV])
  | cons a t₁ ih =>
    intro l₂ hs₁ hs₂ h
    cases l₂ with
    | nil =>
      have ha := h a.1
      rw [lookupKV_cons] at ha
      simp only [beq_self_eq_true, if_pos] at ha
      exact absurd ha (by simp [lookupKV])
    | cons b t₂ =>
      have htail₁ : (t₁.map Prod.fst).Sorted (· < ·) := by
        simp only [List.map_cons] at hs₁
        exact hs₁.of_cons
      have htail₂ : (t₂.map Prod.fst).Sorted (· < ·) := by
        simp only [List.map_cons] at hs₂
        exact hs₂.of_cons
      have hlt₁ : ∀ x ∈ t₁.map Prod.fst, a.1 < x := by
        simp only [List.map_cons] at hs₁
        exact List.rel_of_sorted_cons hs₁
      have hlt₂ : ∀ x ∈ t₂.map Prod.fst, b.1 < x := by
        simp only [List.map_cons] at hs₂
        exact List.rel_of_sorted_cons hs₂
      have hkey : a.1 = b.1 := by
        rcases lt_trichotomy a.1 b.1 with hlt | heq | hgt
        · exfalso
          have ha := h a.1
          rw [lookupKV_cons, lookupKV_cons] at ha
          simp only [beq_self_eq_true, if_pos] at ha
          have hbne : (b.1 == a.1) = false := by
            simp only [beq_eq_false_iff_ne, ne_eq]
            exact fun hc => absurd (hc ▸ hlt) (lt_irrefl _)
          rw [hbne] at ha
          simp only [Bool.false_eq_true, if_neg, if_false] at ha
          have : lookupKV t₂ a.1 = none :=
            lookupKV_none_of_lt (fun x hx => lt_trans hlt (hlt₂ x hx))
          rw [this] at ha
          exact absurd ha (by simp)
        · exact heq
        · exfalso
          have hb := h b.1
          rw [lookupKV_cons, lookupKV_cons] at hb
          simp only [beq_self_eq_true, if_pos] at hb
          have hane : (a.1 == b.1) = false := by
            simp only [beq_eq_false_iff_ne, ne_eq]
            exact fun hc => absurd (hc ▸ hgt) (lt_irrefl _)
          rw [hane] at hb
          simp only [Bool.false_eq_true, if_neg, if_false] at hb
          have : lookupKV t₁ b.1 = none :=
            lookupKV_none_of_lt (fun x hx => lt_trans hgt (hlt₁ x hx))
          rw [this] at hb
          exact absurd hb (by simp)
      have hval : a.2 = b.2 := by
        have ha := h a.1
        rw [lookupKV_cons, lookupKV_cons] at ha
        simp only [beq_self_eq_true, if_pos] at ha
        have : (b.1 == a.1) = true := by simp [hkey]
        rw [this] at ha
        simp only [if_pos] at ha
        simpa using ha
      have htails : t₁ = t₂ := by
        apply ih t₂ htail₁ htail₂
        intro k
        by_cases hk : k = a.1
        · subst hk
          rw [lookupKV_none_of_lt (fun x hx => hlt₁ x hx),
            lookupKV_none_of_lt (fun x hx => hkey ▸ hlt₂ x hx)]
        · have hx := h k
          rw [lookupKV_cons, lookupKV_cons] at hx
          have h1 : (a.1 == k) = false := by
            simp only [beq_eq_false_iff_ne, ne_eq]
            exact fun hc => hk hc.symm
          have h2 : (b.1 == k) = false := by
            simp only [beq_eq_false_iff_ne, ne_eq]
            exact fun hc => hk (hkey ▸ hc).symm
          rw [h1, h2] at hx
          simpa using hx
      rw [htails, show a = b from Prod.ext hkey hval]

theorem sorted_subKVs {V : Type} {S : List (NKey × V)} (p : NKey)
    (hs : (S.map Prod.fst).Sorted (· < ·)) :
    ((subKVs p S).map Prod.fst).Sorted (· < ·) :=
  List.Pairwise.sublist (List.Sublist.map Prod.fst (List.filter_sublist S)) hs

theorem buildNodeStep_congr {V : Type} (kvs : List (NKey × V)) (p : NKey)
    (r₁ r₂ : Nat → MTrie V) (h : ∀ i, r₁ i = r₂ i) :
    buildNodeStep kvs p r₁ = buildNodeStep kvs p r₂ := by
  rw [buildNodeStep, buildNodeStep]
  cases subKVs p kvs with
  | nil => rfl
  | cons kv t =>
    cases t with
    | nil => rfl
    | cons kv2 t2 => exact congrArg MTrie.node (List.map_congr_left (fun i _ => h i))

theorem buildP_congr {V : Type} (S S' : List (NKey × V)) :
    ∀ (fuel : Nat) (p : NKey), subKVs p S = subKVs p S' →
      buildP S fuel p = buildP S' fuel p := by
  intro fuel
  induction fuel with
  | zero => intro p _; rfl
  | succ n ih =>
    intro p h
    rw [buildP, buildP, buildNodeStep, buildNodeStep, h]
    cases hsub : subKVs p S' with
    | nil => rfl
    | cons kv t =>
      cases t with
      | nil => rfl
      | cons kv2 t2 =>
        refine congrArg MTrie.node (List.map_congr_left ?_)
        intro i _
        apply ih (p ++ [i])
        rw [← subKVs_absorb p i S, h, subKVs_absorb]

theorem incBuildP_eq_buildP {V : Type} (F : Nat) (S Spost : List (NKey × V))
    (cache : NKey → Option (MTrie V)) (changed : List NKey)
    (hs : (S.map Prod.fst).Sorted (· < ·))
    (hs' : (Spost.map Prod.fst).Sorted (· < ·))
    (hcov : ∀ k, lookupKV S k ≠ lookupKV Spost k → k ∈ changed)
    (hcache : ∀ p t, cache p = some t → t = buildP S (F - p.length) p) :
    ∀ (fuel : Nat) (p : NKey), fuel + p.length = F →
      incBuildP Spost cache changed fuel p = buildP Spost fuel p := by
  intro fuel
  induction fuel with
  | zero => intro p _; rfl
  | succ n ih =>
    intro p hF
    rw [incBuildP, buildP]
    by_cases hst : staleAt changed p = true
    · rw [if_pos hst]
      apply buildNodeStep_congr
      intro i
      apply ih (p ++ [i])
      simp only [List.length_append, List.length_singleton]
      omega
    · rw [if_neg hst]
      cases hc : cache p with
      | some t =>
        have hFp : F - p.length = n + 1 := by omega
        have ht := hcache p t hc
        rw [ht, hFp]
        apply buildP_congr
        apply lookup_ext _ _ (sorted_subKVs p hs) (sorted_subKVs p hs')
        intro k
        rw [lookup_subKVs, lookup_subKVs]
        by_cases hu : underPath p k = true
        · rw [if_pos hu, if_pos hu]
          by_contra hne
          exact hst (List.any_eq_true.mpr ⟨k, hcov k hne, hu⟩)
        · rw [if_neg hu, if_neg hu]
      | none =>
        apply buildNodeStep_congr
        intro i
        apply ih (p ++ [i])
        simp only [List.length_append, List.length_singleton]
        omega

theorem find?_key {V : Type} {l : List (NKey × V)} {k : NKey} {e : NKey × V}
    (h : l.find? (fun x => x.1 == k) = some e) : e.1 = k := by
  have hx := List.find?_some h
  simpa using hx

theorem find?_eq_of_lookupKV_eq {V : Type} {l₁ l₂ : List (NKey × V)} {k : NKey}
    (h : lookupKV l₁ k = lookupKV l₂ k) :
    l₁.find? (fun e => e.1 == k) = l₂.find? (fun e => e.1 == k) := by
  unfold lookupKV at h
  cases h₁ : l₁.find? (fun e => e.1 == k) with
  | none =>
    cases h₂ : l₂.find? (fun e => e.1 == k) with
    | none => rfl
    | some e => rw [h₁, h₂] at h; exact absurd h (by simp)
  | some e =>
    cases h₂ : l₂.find? (fun e => e.1 == k) with
    | none => rw [h₁, h₂] at h; exact absurd h (by simp)
    | some e' =>
      rw [h₁, h₂] at h
      have hv : e.2 = e'.2 := by
        have hx := h
        simp only [Option.map] at hx
        exact Option.some.inj hx
      rw [show e = e' from Prod.ext ((find?_key h₁).trans (find?_key h₂).symm) hv]

theorem lookupKV_map_keyed {V W : Type} (f : (NKey × V) → W) :
    ∀ (l : List (NKey × V)) (k : NKey),
      lookupKV (l.map (fun e => (e.1, f e))) k = (l.find? (fun e => e.1 == k)).map f := by
  intro l
  induction l with
  | nil => intro k; rfl
  | cons a t ih =>
    intro k
    rw [List.map_cons, lookupKV_cons, List.find?_cons]
    cases h : (a.1 == k) with
    | true => simp [h]
    | false =>
      simp only [h]
      rw [if_neg (by simp)]
      exact ih k

theorem lookup_of_mem_sorted {V : Type} :
    ∀ {l : List (NKey × V)}, (l.map Prod.fst).Sorted (· < ·) →
      ∀ {e : NKey × V}, e ∈ l → lookupKV l e.1 = some e.2 := by
  intro l
  induction l with
  | nil => intro _ e he; exact absurd he (List.not_mem_nil e)
  | cons a t ih =>
    intro hs e he
    rw [lookupKV_cons]
    rcases List.mem_cons.mp he with h | h
    · subst h; simp
    · have hlt : a.1 < e.1 := by
        simp only [List.map_cons] at hs
        exact List.rel_of_sorted_cons hs e.1 (List.mem_map.mpr ⟨e, h, rfl⟩)
      have hne : (a.1 == e.1) = false := by
        simp only [beq_eq_false_iff_ne, ne_eq]
        exact fun hc => absurd (hc ▸ hlt) (lt_irrefl _)
      rw [hne]
      simp only [Bool.false_eq_true, if_false]
      have htail : (t.map Prod.fst).Sorted (· < ·) := by
        simp only [List.map_cons] at hs
        exact hs.of_cons
      exact ih htail h

theorem accountLeafVals_keys (st : WorldState) :
    (accountLeafVals st).map Prod.fst = st.map Prod.fst := by
  unfold accountLeafVals
  rw [List.map_map]
  rfl

theorem storageOf_of_mem {st : WorldState} (hs : (st.map Prod.fst).Sorted (· < ·))
    {e : NKey × Acct × List (NKey × Nat)} (he : e ∈ st) : storageOf st e.1 = e.2.2 := by
  unfold storageOf
  rw [lookup_of_mem_sorted hs he]

/-- C1: for every pre-state `S` and post-state `Spost`, if the changed-account and
per-account changed-storage sets cover every key whose value differs between the
two states, and the caches hold only branch nodes actually persisted for `S`, then
the incremental state-root computation (cached branch nodes skipped outside the
changed prefixes, storage roots recomputed only under changed storage prefixes)
over `Spost` equals the full recomputation over `Spost` with no cache and empty
prefix sets. -/
theorem c1_incremental_eq_full (S Spost : WorldState)
    (acache : NKey → Option (MTrie (Acct × MTrie Nat)))
    (scache : NKey → NKey → Option (MTrie Nat))
    (changedA : List NKey) (changedS : NKey → List NKey)
    (hsA : (S.map Prod.fst).Sorted (· < ·))
    (hsA' : (Spost.map Prod.fst).Sorted (· < ·))
    (hsS : ∀ a, ((storageOf S a).map Prod.fst).Sorted (· < ·))
    (hsS' : ∀ a, ((storageOf Spost a).map Prod.fst).Sorted (· < ·))
    (hcovA : ∀ a, lookupKV S a ≠ lookupKV Spost a → a ∈ changedA)
    (hcovS : ∀ a s, lookupKV (storageOf S a) s ≠ lookupKV (storageOf Spost a) s →
      s ∈ changedS a)
    (hac : ∀ p t, acache p = some t →
      t = buildP (accountLeafVals S) (FUELC - p.length) p)
    (hsc : ∀ a p t, scache a p = some t →
      t = buildP (storageOf S a) (FUELC - p.length) p) :
    incStateRoot Spost acache scache changedA changedS = fullStateRoot Spost := by
  have hleaf : incAccountLeafVals Spost scache changedS = accountLeafVals Spost := by
    unfold incAccountLeafVals accountLeafVals
    apply List.map_congr_left
    intro e he
    have hstor : storageOf Spost e.1 = e.2.2 := storageOf_of_mem hsA' he
    have hinner : incBuildP e.2.2 (scache e.1) (changedS e.1) FUELC [] =
        buildP e.2.2 FUELC [] := by
      apply incBuildP_eq_buildP FUELC (storageOf S e.1) e.2.2 (scache e.1) (changedS e.1)
        (hsS e.1) (hstor ▸ hsS' e.1) ?_ (hsc e.1) FUELC [] (by simp)
      intro k hk
      apply hcovS e.1 k
      rw [hstor]
      exact hk
    rw [hinner]
  rw [incStateRoot, hleaf]
  show incBuildP (accountLeafVals Spost) acache changedA FUELC [] = fullStateRoot Spost
  rw [fullStateRoot]
  apply incBuildP_eq_buildP FUELC (accountLeafVals S) (accountLeafVals Spost) acache
    changedA ?_ ?_ ?_ hac FUELC [] (by simp)
  · rw [accountLeafVals_keys]; exact hsA
  · rw [accountLeafVals_keys]; exact hsA'
  · intro k hk
    apply hcovA k
    intro heq
    apply hk
    have hfind := find?_eq_of_lookupKV_eq heq
    show lookupKV (S.map (fun e => (e.1, (e.2.1, buildP e.2.2 FUELC [])))) k =
      lookupKV (Spost.map (fun e => (e.1, (e.2.1, buildP e.2.2 FUELC [])))) k
    rw [lookupKV_map_keyed (fun e => (e.2.1, buildP e.2.2 FUELC [])) S k,
      lookupKV_map_keyed (fun e => (e.2.1, buildP e.2.2 FUELC [])) Spost k, hfind]

theorem c1_incremental_eq_full_witness :
    (ws0.map Prod.fst).Sorted (· < ·) ∧
    (∀ a, ((storageOf ws0 a).map Prod.fst).Sorted (· < ·)) ∧
    incStateRoot ws0 (fun _ => none) (fun _ _ => none) [] (fun _ => []) =
      fullStateRoot ws0 := by
  have hsorted : (ws0.map Prod.fst).Sorted (· < ·) := by
    simp [ws0]
  have hstor : ∀ a, ((storageOf ws0 a).map Prod.fst).Sorted (· < ·) := by
    intro a
    have hval : ∀ av, lookupKV ws0 a = some av → av = (acct0, []) := by
      intro av h
      unfold lookupKV ws0 at h
      cases hf : List.find? (fun kv => kv.1 == a) [([0, 1], acct0, [])] with
      | none => rw [hf] at h; exact absurd h (by simp)
      | some e =>
        rw [hf] at h
        have hm := List.mem_of_find?_eq_some hf
        simp only [List.mem_singleton] at hm
        have hv : av = e.2 := by
          simp only [Option.map] at h
          exact (Option.some.inj h).symm
        rw [hv, hm]
    unfold storageOf
    cases hl : lookupKV ws0 a with
    | none => simp
    | some av => rw [hval av hl]; simp
  exact ⟨hsorted, hstor, c1_incremental_eq_full ws0 ws0 (fun _ => none) (fun _ _ => none)
    [] (fun _ => []) hsorted hsorted hstor hstor (fun a h => absurd rfl h)
    (fun a s h => absurd rfl h) (fun p t h => nomatch h) (fun a p t h => nomatch h)⟩
